import Mathlib

/-! Shallow embedding of the promql crate's string-literal decoder (src/str.rs)
and expression parser (src/expr.rs), together with theorems checking the
natural-language specification against it.

The string decoder in src/str.rs is written against nom's complete combinators
with `VerboseError` diagnostics; parsers are modelled as functions from a list
of characters to either `ok (remaining, value)` or `error frames`, where the
frames mirror nom's `VerboseError` stack (remaining input at failure, kind). -/

namespace PromQL

namespace Str

/-- The error-frame kinds produced by the nom combinators used in src/str.rs:
`VerboseErrorKind::Char(c)` from `char`, and the `Nom(ErrorKind)` variants
`Alt`, `MapOpt`, `MapRes`, `Eof` (from complete `take`), `IsNot`, `Many0`. -/
inductive VKind where
  | vchar (c : Char)
  | valt
  | vmapOpt
  | vmapRes
  | veof
  | visNot
  | vmany0
  deriving DecidableEq

/-- Parse result: `Ok((remaining, value))` or `Err(VerboseError)` where the
error is the list of frames, innermost first, as nom accumulates them. -/
inductive PR (α : Type) where
  | ok (rest : List Char) (val : α)
  | error (e : List (List Char × VKind))
  deriving DecidableEq

abbrev P (α : Type) := List Char → PR α

/-- Model of `nom::character::complete::char(c)`: matches exactly the character `c`;
on mismatch or empty input fails with a `Char(c)` frame at the current input. -/
def pchar (c : Char) : P Char := fun input =>
  match input with
  | x :: rest => if x = c then .ok rest c else .error [(input, .vchar c)]
  | [] => .error [([], .vchar c)]

/-- Model of `nom::bytes::complete::take(n)`: consumes exactly `n` characters (nom's
`take` on `&str` counts characters); fails with an `Eof` frame if the input is
shorter. -/
def ptake (n : Nat) : P (List Char) := fun input =>
  if n ≤ input.length then .ok (input.drop n) (input.take n)
  else .error [(input, .veof)]

/-- Model of `nom::combinator::map`. -/
def pmap {α β : Type} (p : P α) (f : α → β) : P β := fun input =>
  match p input with
  | .ok rest v => .ok rest (f v)
  | .error e => .error e

/-- Model of `nom::combinator::map_res`; the `Result` error payload (the crate's
`UnicodeRuneError`, coupling `FromUtf8Error` and `ParseIntError`) is modelled
by `Option` since nom discards it into a single `MapRes` frame at the
combinator's input.  (`String::from_utf8` cannot fail here because the input is
modelled as text, matching the `&str` instantiation exercised by the tests.) -/
def pmapRes {α β : Type} (p : P α) (f : α → Option β) : P β := fun input =>
  match p input with
  | .ok rest v =>
    match f v with
    | some b => .ok rest b
    | none => .error [(input, .vmapRes)]
  | .error e => .error e

/-- Model of `nom::combinator::map_opt`: like `map_res` but the failure kind is `MapOpt`. -/
def pmapOpt {α β : Type} (p : P α) (f : α → Option β) : P β := fun input =>
  match p input with
  | .ok rest v =>
    match f v with
    | some b => .ok rest b
    | none => .error [(input, .vmapOpt)]
  | .error e => .error e

/-- Model of `nom::sequence::preceded`. -/
def ppreceded {α β : Type} (a : P α) (b : P β) : P β := fun input =>
  match a input with
  | .ok rest _ => b rest
  | .error e => .error e

/-- Model of `nom::sequence::delimited`. -/
def pdelimited {α β γ : Type} (a : P α) (b : P β) (c : P γ) : P β := fun input =>
  match a input with
  | .ok i1 _ =>
    match b i1 with
    | .ok i2 v =>
      match c i2 with
      | .ok i3 _ => .ok i3 v
      | .error e => .error e
    | .error e => .error e
  | .error e => .error e

/-- Helper for `palt`: try the alternatives in order; `VerboseError::or` keeps
the *last* alternative's error, and when all fail nom appends an `Alt` frame at
the alternation's input. -/
def paltGo {α : Type} (input : List Char) :
    List (P α) → List (List Char × VKind) → PR α
  | [], lastErr => .error (lastErr ++ [(input, .valt)])
  | p :: ps, _lastErr =>
    match p input with
    | .ok rest v => .ok rest v
    | .error e => paltGo input ps e

/-- Model of `nom::branch::alt`. -/
def palt {α : Type} (ps : List (P α)) : P α := fun input => paltGo input ps []

/-- Fueled body of `many0`; nom's `many0` loops until the inner parser fails,
and errors with a `Many0` frame if an iteration consumes nothing.  Every
successful iteration consumes at least one character, so fuel
`input.length + 1` is enough; the fuel-0 branch is an unreachable artifact of
the encoding. -/
def many0Go {α : Type} (p : P α) : Nat → List Char → PR (List α)
  | 0, input => .error [(input, .vmany0)]
  | fuel + 1, input =>
    match p input with
    | .error _ => .ok input []
    | .ok rest v =>
      if rest.length < input.length then
        match many0Go p fuel rest with
        | .ok r vs => .ok r (v :: vs)
        | .error e => .error e
      else .error [(input, .vmany0)]

/-- Model of `nom::multi::many0`. -/
def many0 {α : Type} (p : P α) : P (List α) := fun input =>
  many0Go p (input.length + 1) input

/-- Rust `char::to_digit(radix)`: the digit value of `c` (decimal digits,
then lowercase and uppercase letters), provided it is below the radix. -/
def toDigit (radix : Nat) (c : Char) : Option Nat :=
  if '0' ≤ c ∧ c ≤ '9' then
    if c.toNat - '0'.toNat < radix then some (c.toNat - '0'.toNat) else none
  else if 'a' ≤ c ∧ c ≤ 'z' then
    if c.toNat - 'a'.toNat + 10 < radix then some (c.toNat - 'a'.toNat + 10)
    else none
  else if 'A' ≤ c ∧ c ≤ 'Z' then
    if c.toNat - 'A'.toNat + 10 < radix then some (c.toNat - 'A'.toNat + 10)
    else none
  else none

/-- Digit-accumulation loop of Rust `from_str_radix`, overflow-checked against
the target type's maximum (`checked_mul`/`checked_add` collapse to a single
`≤ max` test on `Nat`). -/
def fromStrRadixGo (max radix : Nat) : Nat → List Char → Option Nat
  | acc, [] => some acc
  | acc, c :: cs =>
    match toDigit radix c with
    | none => none
    | some d =>
      let acc' := acc * radix + d
      if acc' ≤ max then fromStrRadixGo max radix acc' cs else none

/-- Rust `uN::from_str_radix` for an unsigned type with maximum `max`: an
optional leading `'+'` (a `'-'` is not accepted for unsigned types), then a
nonempty run of digits of the radix, overflow-checked. -/
def from_str_radix (max radix : Nat) (s : List Char) : Option Nat :=
  match s with
  | [] => none
  | c :: cs =>
    if c = '+' then
      match cs with
      | [] => none
      | _ => fromStrRadixGo max radix 0 cs
    else fromStrRadixGo max radix 0 s

/-- Model of `u8::MAX`. -/
def u8Max : Nat := 255

/-- Model of `u32::MAX`. -/
def u32Max : Nat := 4294967295

/-- Model of `fixed_length_radix!(I, T, len, radix)`: `map_res(take(len), |n|
T::from_str_radix(&String::from_utf8(n)?, radix))` with `typeMax = T::MAX`. -/
def fixed_length_radix (typeMax len radix : Nat) : P Nat :=
  pmapRes (ptake len) (fun s => from_str_radix typeMax radix s)

/-- The UTF-8 byte encoding of a Unicode scalar value (Rust
`char::encode_utf8`). -/
def utf8Encode (n : Nat) : List Nat :=
  if n < 0x80 then [n]
  else if n < 0x800 then [0xC0 + n / 64, 0x80 + n % 64]
  else if n < 0x10000 then
    [0xE0 + n / 4096, 0x80 + n / 64 % 64, 0x80 + n % 64]
  else
    [0xF0 + n / 262144, 0x80 + n / 4096 % 64, 0x80 + n / 64 % 64, 0x80 + n % 64]

/-- Model of `validate_unicode_scalar(n)`: `char::from_u32(n)` yields a `char` exactly
when `n` is a Unicode scalar value (not a surrogate in `0xD800..=0xDFFF`, not
above `0x10FFFF`); the `char` is then re-encoded as its UTF-8 bytes. -/
def validate_unicode_scalar (n : Nat) : Option (List Nat) :=
  if 0x110000 ≤ n ∨ (0xD800 ≤ n ∧ n ≤ 0xDFFF) then none
  else some (utf8Encode n)

/-- The single-quote character (0x27). -/
def squote : Char := Char.ofNat 39

/-- The backtick character (0x60). -/
def btick : Char := Char.ofNat 96

/-- The ordered alternatives of `rune` (the table after the leading `\`). -/
def runeAlts : List (P (List Nat)) := [
  pmap (pchar 'a') (fun _ => [0x07]),
  pmap (pchar 'b') (fun _ => [0x08]),
  pmap (pchar 'f') (fun _ => [0x0c]),
  pmap (pchar 'n') (fun _ => [0x0a]),
  pmap (pchar 'r') (fun _ => [0x0d]),
  pmap (pchar 't') (fun _ => [0x09]),
  pmap (pchar 'v') (fun _ => [0x0b]),
  pmap (pchar '\\') (fun _ => [0x5c]),
  pmap (pchar squote) (fun _ => [0x27]),
  pmap (pchar '"') (fun _ => [0x22]),
  pmap (fixed_length_radix u8Max 3 8) (fun n => [n]),
  pmap (ppreceded (pchar 'x') (fixed_length_radix u8Max 2 16)) (fun n => [n]),
  pmapOpt (ppreceded (pchar 'u') (fixed_length_radix u32Max 4 16))
    validate_unicode_scalar,
  pmapOpt (ppreceded (pchar 'U') (fixed_length_radix u32Max 8 16))
    validate_unicode_scalar]

/-- Model of `rune`: one escape sequence introduced by a backslash, decoded to its
byte(s). -/
def rune : P (List Nat) := ppreceded (pchar '\\') (palt runeAlts)

/-- Model of `nom::bytes::complete::is_not(arg)`: the longest nonempty run of
characters not in `arg`; fails with an `IsNot` frame when the run would be
empty. -/
def is_not (arg : List Char) : P (List Char) := fun input =>
  let consumed := input.takeWhile (fun c => !arg.contains c)
  if consumed.length = 0 then .error [(input, .visNot)]
  else .ok (input.dropWhile (fun c => !arg.contains c)) consumed

/-- UTF-8 bytes of one character (`as_bytes` on the matched `&str` slice). -/
def charUtf8 (c : Char) : List Nat := utf8Encode c.toNat

/-- UTF-8 bytes of a run of characters. -/
def strUtf8 (cs : List Char) : List Nat :=
  cs.foldr (fun c acc => charUtf8 c ++ acc) []

/-- Model of `is_not_v(arg)`: `map(is_not(arg), |bytes| bytes.as_bytes().to_vec())`. -/
def is_not_v (arg : List Char) : P (List Nat) :=
  pmap (is_not arg) (fun cs => strUtf8 cs)

/-- Model of `Vec<Vec<u8>>::concat()`. -/
def concatBytes (l : List (List Nat)) : List Nat :=
  l.foldr (fun x acc => x ++ acc) []

/-- Model of `chars_except(arg)`: `map(many0(alt((rune, is_not_v(arg)))), |s| s.concat())`. -/
def chars_except (arg : List Char) : P (List Nat) :=
  pmap (many0 (palt [rune, is_not_v arg])) concatBytes

/-- Model of `string`: the three literal forms, tried in order — double-quoted and
single-quoted with escape decoding (newline, the delimiter and backslash
excluded from plain runs), and raw backtick literals with no escape
processing. -/
def string : P (List Nat) :=
  palt [
    pdelimited (pchar '"') (chars_except ['\n', '"', '\\']) (pchar '"'),
    pdelimited (pchar squote) (chars_except ['\n', squote, '\\']) (pchar squote),
    pdelimited (pchar btick) (is_not_v [btick]) (pchar btick)]

/-- Whether a parse result is a failure. -/
def isErrorB {α : Type} : PR α → Bool
  | .error _ => true
  | .ok _ _ => false

/-- The kinds of the reported error frames (discarding positions). -/
def errKinds {α : Type} : PR α → List VKind
  | .error e => e.map (fun f => f.2)
  | .ok _ _ => []

/-- The positional numeric value of a digit string in the given radix (each
digit read with `toDigit`); for an all-digit string this is the number the
escape denotes. -/
def natVal (radix : Nat) : List Char → Nat
  | [] => 0
  | c :: cs => (toDigit radix c).getD 0 * radix ^ cs.length + natVal radix cs

/-- The exact shape Rust `from_str_radix` accepts (ignoring overflow): an
optional leading `'+'` followed by a nonempty run of digits of the radix. -/
def rustNumOk (radix : Nat) (s : List Char) : Bool :=
  match s with
  | [] => false
  | c :: cs =>
    if c = '+' then !cs.isEmpty && cs.all (fun x => (toDigit radix x).isSome)
    else (c :: cs).all (fun x => (toDigit radix x).isSome)

end Str

/-! The expression parser in src/expr.rs is written against nom 3's macro
combinators (`named!`, `ws!`, `do_parse!`, `many0!`, `alt!`, `tag!`, …), whose
three-valued results (`Done` / `Error` / `Incomplete`) are modelled by
`IResult` below.  Error kinds and `Needed` counts are not tracked because no
claim inspects them.  nom 3's `ws!(p)` rewrites `p` so that the whitespace
eater `sp` runs before every inner token parser and once more after `p`
succeeds; the `spDrop` applications below are the hand-expansion of that
rewriting. -/

namespace Expr

/-- The `Op` operator tag of src/expr.rs. -/
inductive Op where
  | pow
  | mul
  | div
  | mod
  | plus
  | minus
  | eq
  | ne
  | lt
  | gt
  | le
  | ge
  | and
  | unless
  | or
  deriving DecidableEq

/-- The `Node` AST.  `InstantVector`'s payload (an opaque `vec::Vector`
produced by the external vector-operand parser) is modelled as the consumed
selector text; `Scalar`'s `f32` payload is modelled as the source text of the
numeric literal, since no claim inspects the numeric value and the text
determines it. -/
inductive Node where
  | operator (x : Node) (op : Op) (y : Node)
  | instantVector (v : String)
  | scalar (v : String)
  deriving DecidableEq

/-- nom 3 `IResult`: `Done(remaining, value)`, `Error` (kind untracked) or
`Incomplete` (needed count untracked). -/
inductive IResult (α : Type) where
  | done (rest : List Char) (val : α)
  | error
  | incomplete
  deriving DecidableEq

abbrev NP (α : Type) := List Char → IResult α

/-- The whitespace characters eaten by nom 3's `sp` (`" \t\r\n"`). -/
def wsChars : List Char := [' ', '\t', '\r', '\n']

/-- nom 3 `sp` / `eat_separator!(" \t\r\n")`: drop any (possibly empty) run
of whitespace. -/
def spDrop (input : List Char) : List Char :=
  input.dropWhile (fun c => wsChars.contains c)

/-- The final separator consumption `ws!` performs after its body succeeds. -/
def wsTrail {α : Type} (p : NP α) : NP α := fun input =>
  match p input with
  | .done rest v => .done (spDrop rest) v
  | .error => .error
  | .incomplete => .incomplete

/-- nom 3 `char!(c)`. -/
def pcharN (c : Char) : NP Char := fun input =>
  match input with
  | [] => .incomplete
  | x :: rest => if x = c then .done rest c else .error

/-- nom 3 `tag!(t)`: compare the first `min t.length input.length` characters;
mismatch is `Error`, a matching but too-short input is `Incomplete`. -/
def ptagN (t : List Char) : NP (List Char) := fun input =>
  let m := min t.length input.length
  if input.take m = t.take m then
    if input.length < t.length then .incomplete
    else .done (input.drop t.length) t
  else .error

/-- nom 3 `tag_no_case!(t)`. -/
def ptagNoCase (t : List Char) : NP (List Char) := fun input =>
  let m := min t.length input.length
  if (input.take m).map Char.toLower = (t.take m).map Char.toLower then
    if input.length < t.length then .incomplete
    else .done (input.drop t.length) t
  else .error

/-- nom 3 `map!`. -/
def pmapN {α β : Type} (p : NP α) (f : α → β) : NP β := fun input =>
  match p input with
  | .done rest v => .done rest (f v)
  | .error => .error
  | .incomplete => .incomplete

/-- nom 3 `alt!`: try alternatives in order; `Error` moves on to the next
alternative, `Incomplete` is returned immediately. -/
def altN {α : Type} : List (NP α) → NP α
  | [] => fun _ => .error
  | p :: ps => fun input =>
    match p input with
    | .done rest v => .done rest v
    | .incomplete => .incomplete
    | .error => altN ps input

/-- nom 3 `opt!`: `Error` becomes `Done(input, None)`, `Incomplete` is kept. -/
def poptN {α : Type} (p : NP α) : NP (Option α) := fun input =>
  match p input with
  | .done rest v => .done rest (some v)
  | .error => .done input none
  | .incomplete => .incomplete

/-- nom 3 `complete!`: `Incomplete` becomes `Error`. -/
def pcompleteN {α : Type} (p : NP α) : NP α := fun input =>
  match p input with
  | .done rest v => .done rest v
  | .error => .error
  | .incomplete => .error

/-- Fueled body of nom 3's `many0!`: stop with `Done` on empty input or when
the inner parser errors; propagate `Incomplete`; a consuming-nothing success
is an `Error` (nom 3's infinite-loop guard).  Fuel `input.length + 1` is
enough since every iteration consumes; the fuel-0 branch is an unreachable
artifact of the encoding. -/
def many0NGo {α : Type} (p : NP α) : Nat → List Char → IResult (List α)
  | 0, _ => .error
  | fuel + 1, input =>
    if input.length = 0 then .done input []
    else
      match p input with
      | .error => .done input []
      | .incomplete => .incomplete
      | .done rest v =>
        if rest.length = input.length then .error
        else
          match many0NGo p fuel rest with
          | .done r vs => .done r (v :: vs)
          | .error => .error
          | .incomplete => .incomplete

/-- nom 3 `many0!`. -/
def many0N {α : Type} (p : NP α) : NP (List α) := fun input =>
  many0NGo p (input.length + 1) input

/-- nom 3 `recognize!`: run the inner parser, return the consumed slice. -/
def precognize {α : Type} (p : NP α) : NP String := fun input =>
  match p input with
  | .done rest _ => .done rest (String.mk (input.take (input.length - rest.length)))
  | .error => .error
  | .incomplete => .incomplete

/-- nom 3 `digit` (streaming): one or more decimal digits; `Incomplete` on
empty input or when the digit run reaches the end of the input, `Error` when
the first character is not a digit. -/
def digitN : NP String := fun input =>
  match input with
  | [] => .incomplete
  | c :: _ =>
    if c.isDigit then
      let run := input.takeWhile Char.isDigit
      if run.length = input.length then .incomplete
      else .done (input.drop run.length) (String.mk run)
    else .error

/-- Body of nom 3 `recognize_float`-style grammar used by `float`:
`tuple!(opt!(sign), alt!(digit "." opt!(complete!(digit)) | opt!(digit) "."
digit), opt!(complete!(exponent)))`.  A bare integer without `.` does not
match (Geal/nom#437), which is why `atom` has the separate `digit` fallback. -/
def floatBody : NP Unit := fun input =>
  match poptN (altN [ptagN ['+'], ptagN ['-']]) input with
  | .done i1 _ =>
    match altN [
      (fun j =>
        match digitN j with
        | .done j1 _ =>
          match ptagN ['.'] j1 with
          | .done j2 _ =>
            match poptN (pcompleteN digitN) j2 with
            | .done j3 _ => .done j3 ()
            | .error => .error
            | .incomplete => .incomplete
          | .error => .error
          | .incomplete => .incomplete
        | .error => .error
        | .incomplete => .incomplete),
      (fun j =>
        match poptN digitN j with
        | .done j1 _ =>
          match ptagN ['.'] j1 with
          | .done j2 _ =>
            match digitN j2 with
            | .done j3 _ => .done j3 ()
            | .error => .error
            | .incomplete => .incomplete
          | .error => .error
          | .incomplete => .incomplete
        | .error => .error
        | .incomplete => .incomplete)] i1 with
    | .done i2 _ =>
      match poptN (pcompleteN (fun k =>
        match altN [ptagN ['e'], ptagN ['E']] k with
        | .done k1 _ =>
          match poptN (altN [ptagN ['+'], ptagN ['-']]) k1 with
          | .done k2 _ =>
            match digitN k2 with
            | .done k3 _ => .done k3 ()
            | .error => .error
            | .incomplete => .incomplete
          | .error => .error
          | .incomplete => .incomplete
        | .error => .error
        | .incomplete => .incomplete)) i2 with
      | .done i3 _ => .done i3 ()
      | .error => .error
      | .incomplete => .incomplete
    | .error => .error
    | .incomplete => .incomplete
  | .error => .error
  | .incomplete => .incomplete

/-- nom 3 `float`: recognize the float syntax and convert with
`parse_to!(f32)`; the `f32` is represented by the recognized text (the
conversion itself cannot fail on recognized input). -/
def floatN : NP String := precognize floatBody

/-- Modelled from the spec: the external Vector Operand Parser (spec section 6,
`vec.rs`, which is not under src/).  Per the spec it parses vector-selector
syntax and returns an opaque value; for the operand identifiers exercised by
the claims it is modelled as a PromQL metric identifier — a run of characters
starting with a letter, `_` or `:`, continuing with letters, digits, `_` or
`:` — whose consumed text is the opaque payload. -/
def vector : NP String := fun input =>
  match input with
  | [] => .incomplete
  | c :: _ =>
    if c.isAlpha || c = '_' || c = ':' then
      let run := input.takeWhile (fun x => x.isAlphanum || x = '_' || x = ':')
      .done (input.drop run.length) (String.mk run)
    else .error

/-- Model of `atom`: `ws!(alt!(NaN | (float | digit) | vector | "(" expression ")"))`,
with `expressionP` the parser used inside parentheses (tied to the fueled
`expression` below). -/
def atom (expressionP : NP Node) : NP Node :=
  wsTrail (fun input =>
    altN [
      (fun i => pmapN (ptagNoCase ['N', 'a', 'N']) (fun _ => Node.scalar "NaN")
        (spDrop i)),
      (fun i => altN [
        (fun j => pmapN floatN Node.scalar (spDrop j)),
        (fun j => pmapN digitN Node.scalar (spDrop j))] i),
      (fun i => pmapN vector Node.instantVector (spDrop i)),
      (fun i =>
        match pcharN '(' (spDrop i) with
        | .done i1 _ =>
          match expressionP (spDrop i1) with
          | .done i2 e =>
            match pcharN ')' (spDrop i2) with
            | .done i3 _ => .done i3 e
            | .error => .error
            | .incomplete => .incomplete
          | .error => .error
          | .incomplete => .incomplete
        | .error => .error
        | .incomplete => .incomplete)] input)

/-- Fueled body of `power`: `ws!(do_parse!(x: atom >> y:
opt!(complete!(preceded!(tag!("^"), power))) >> …))`.  Each recursive step
consumes the `^`, so fuel `input.length + 1` is enough; the fuel-0 branch is
an unreachable artifact of the encoding. -/
def powerGo (atomP : NP Node) : Nat → NP Node
  | 0, _ => .error
  | fuel + 1, input =>
    wsTrail (fun inp =>
      match atomP (spDrop inp) with
      | .done i1 x =>
        let r0 : IResult Node :=
          match ptagN ['^'] (spDrop i1) with
          | .done i2 _ => powerGo atomP fuel (spDrop i2)
          | .error => .error
          | .incomplete => .incomplete
        let r1 : IResult Node :=  -- complete!
          match r0 with
          | .done i3 y => .done i3 y
          | .error => .error
          | .incomplete => .error
        let r2 : IResult (Option Node) :=  -- opt!
          match r1 with
          | .done i3 y => .done i3 (some y)
          | .error => .done i1 none
          | .incomplete => .incomplete
        match r2 with
        | .done i4 yo =>
          .done i4 (match yo with
                    | none => x
                    | some y => Node.operator x Op.pow y)
        | .error => .error
        | .incomplete => .incomplete
      | .error => .error
      | .incomplete => .incomplete) input

/-- Model of `power`: right-recursive `^` layer over `atom`. -/
def power (atomP : NP Node) : NP Node := fun input =>
  powerGo atomP (input.length + 1) input

/-- The `left_op!` macro of src/expr.rs: parse one term of the
next-higher-precedence layer, then `many0!(tuple!(op, next))`, and fold the
pairs left with `x = Node::operator(x, op, y)`. -/
def left_op (next : NP Node) (opp : NP Op) : NP Node :=
  wsTrail (fun input =>
    match next (spDrop input) with
    | .done i1 x =>
      match many0N (fun i =>
        match opp (spDrop i) with
        | .done i2 o =>
          match next (spDrop i2) with
          | .done i3 y => .done i3 (o, y)
          | .error => .error
          | .incomplete => .incomplete
        | .error => .error
        | .incomplete => .incomplete) i1 with
      | .done r ops =>
        .done r (ops.foldl (fun a p => Node.operator a p.1 p.2) x)
      | .error => .error
      | .incomplete => .incomplete
    | .error => .error
    | .incomplete => .incomplete)

/-- An operator alternation `alt!(tag!(s) => { |_| op } | …)` given as a
(tag, operator) table in the source's order. -/
def opAlt (ops : List (List Char × Op)) : NP Op :=
  altN (ops.map (fun p => pmapN (ptagN p.1) (fun _ => p.2)))

/-- The `mul_div_mod` layer's operator table. -/
def mulOps : List (List Char × Op) :=
  [(['*'], .mul), (['/'], .div), (['%'], .mod)]

/-- The `plus_minus` layer's operator table. -/
def plusOps : List (List Char × Op) :=
  [(['+'], .plus), (['-'], .minus)]

/-- The `comparison` layer's operator table (two-character tags first, as in
the source). -/
def cmpOps : List (List Char × Op) :=
  [(['=', '='], .eq), (['!', '='], .ne), (['<', '='], .le), (['>', '='], .ge),
   (['<'], .lt), (['>'], .gt)]

/-- The `and_unless` layer's operator table. -/
def andOps : List (List Char × Op) :=
  [(['a', 'n', 'd'], .and), (['u', 'n', 'l', 'e', 's', 's'], .unless)]

/-- The `or_op` layer's operator table (a single `map!(tag!("or"), …)` in the
source, which behaves as a one-element alternation). -/
def orOps : List (List Char × Op) := [(['o', 'r'], .or)]

/-- Model of `left_op!(mul_div_mod, power, …)`. -/
def mul_div_mod (next : NP Node) : NP Node := left_op next (opAlt mulOps)

/-- Model of `left_op!(plus_minus, mul_div_mod, …)`. -/
def plus_minus (next : NP Node) : NP Node := left_op next (opAlt plusOps)

/-- Model of `left_op!(comparison, plus_minus, …)`. -/
def comparison (next : NP Node) : NP Node := left_op next (opAlt cmpOps)

/-- Model of `left_op!(and_unless, comparison, …)`. -/
def and_unless (next : NP Node) : NP Node := left_op next (opAlt andOps)

/-- Model of `left_op!(or_op, and_unless, …)`. -/
def or_op (next : NP Node) : NP Node := left_op next (opAlt orOps)

/-- The fueled precedence cascade: each unit of fuel allows one more
parenthesized re-entry into the full grammar; the fuel-0 branch is an
unreachable artifact (every re-entry consumes the `(`). -/
def expressionF : Nat → NP Node
  | 0, _ => .error
  | fuel + 1, input =>
    or_op (and_unless (comparison (plus_minus (mul_div_mod
      (power (atom (expressionF fuel))))))) input

/-- Model of `named!(pub expression, call!(or_op))`: the public entry point, with fuel
`input.length + 1` (enough for any nesting the input can contain). -/
def expression : NP Node := fun input => expressionF (input.length + 1) input

/-- The input `foo OP1 bar OP2 baz` for two operator tags. -/
def mk3 (o1 o2 : List Char) : List Char :=
  "foo ".toList ++ o1 ++ " bar ".toList ++ o2 ++ " baz".toList

/-- The left-leaning tree `(foo OP1 bar) OP2 baz`. -/
def leftTree (o1 o2 : Op) : Node :=
  .operator (.operator (.instantVector "foo") o1 (.instantVector "bar")) o2
    (.instantVector "baz")

end Expr

end PromQL

-- Sanity checks mirroring the crate's own test-suite for src/expr.rs.

open PromQL.Expr in
example :
    expression ("foo > bar != 0 and 15.5 < xyzzy".toList) =
      .done [] (.operator
        (.operator
          (.operator (.instantVector "foo") .gt (.instantVector "bar"))
          .ne (.scalar "0"))
        .and
        (.operator (.scalar "15.5") .lt (.instantVector "xyzzy"))) := by decide

open PromQL.Expr in
example :
    expression ("foo + bar - baz <= quux + xyzzy".toList) =
      .done [] (.operator
        (.operator
          (.operator (.instantVector "foo") .plus (.instantVector "bar"))
          .minus (.instantVector "baz"))
        .le
        (.operator (.instantVector "quux") .plus (.instantVector "xyzzy"))) := by
  decide

open PromQL.Expr in
example :
    expression ("foo + bar % baz".toList) =
      .done [] (.operator (.instantVector "foo") .plus
        (.operator (.instantVector "bar") .mod (.instantVector "baz"))) := by
  decide

open PromQL.Expr in
example :
    expression ("x^y^z".toList) =
      .done [] (.operator (.instantVector "x") .pow
        (.operator (.instantVector "y") .pow (.instantVector "z"))) := by decide

open PromQL.Expr in
example :
    expression ("(a+b)*c".toList) =
      .done [] (.operator
        (.operator (.instantVector "a") .plus (.instantVector "b"))
        .mul (.instantVector "c")) := by decide


-- Sanity checks mirroring the crate's own test-suite for src/str.rs.

open PromQL.Str in
example : rune ("\\123".toList) = .ok [] [0o123] := by decide

open PromQL.Str in
example : rune ("\\x23".toList) = .ok [] [0x23] := by decide

open PromQL.Str in
example : rune ("\\uabcd".toList) = .ok [] [0xea, 0xaf, 0x8d] := by decide

open PromQL.Str in
example : rune ("\\uD801".toList) =
    .error [("uD801".toList, .vchar 'U'), ("uD801".toList, .valt)] := by decide

open PromQL.Str in
example : rune ("\\U00010330".toList) = .ok [] [0xf0, 0x90, 0x8c, 0xb0] := by
  decide

open PromQL.Str in
example : rune ("\\UdeadDEAD".toList) =
    .error [("UdeadDEAD".toList, .vmapOpt), ("UdeadDEAD".toList, .valt)] := by
  decide

open PromQL.Str in
example : rune ("\\xxx".toList) =
    .error [("xxx".toList, .vchar 'U'), ("xxx".toList, .valt)] := by decide

open PromQL.Str in
example : rune ("\\x1".toList) =
    .error [("x1".toList, .vchar 'U'), ("x1".toList, .valt)] := by decide

open PromQL.Str in
example :
    string (('"' :: "lorem ipsum \\\"dolor\\nsit amet\\\"".toList) ++ ['"']) =
      .ok [] (strUtf8 ("lorem ipsum \"dolor\nsit amet\"".toList)) := by decide

open PromQL.Str in
example :
    string ((squote :: "this\nis not valid".toList) ++ [squote]) =
      .error [((squote :: "this\nis not valid".toList) ++ [squote], .vchar btick),
              ((squote :: "this\nis not valid".toList) ++ [squote], .valt)] := by
  decide

open PromQL.Str in
example :
    string ((btick :: "but this\nis".toList) ++ [btick]) =
      .ok [] (strUtf8 ("but this\nis".toList)) := by decide

/-! Inversion lemmas for the string-decoder combinators. -/

namespace PromQL.Str

theorem pchar_ok {c : Char} {input rest : List Char} {v : Char}
    (h : pchar c input = .ok rest v) : input = c :: rest ∧ v = c := by
  cases input with
  | nil => simp [pchar] at h
  | cons x t =>
    by_cases hx : x = c
    · subst hx
      simp [pchar] at h
      exact ⟨by rw [h.1], h.2.symm⟩
    · simp [pchar, hx] at h

theorem ptake_ok {n : Nat} {input rest v : List Char}
    (h : ptake n input = .ok rest v) :
    input = v ++ rest ∧ v.length = n := by
  by_cases hn : n ≤ input.length
  · simp only [ptake, if_pos hn, PR.ok.injEq] at h
    refine ⟨?_, ?_⟩
    · rw [← h.1, ← h.2, List.take_append_drop]
    · rw [← h.2, List.length_take]
      omega
  · simp [ptake, hn] at h

theorem pmap_ok {α β : Type} {p : P α} {f : α → β} {input rest : List Char}
    {w : β} (h : pmap p f input = .ok rest w) :
    ∃ v, p input = .ok rest v ∧ w = f v := by
  unfold pmap at h
  cases hp : p input with
  | ok r v =>
    rw [hp] at h
    simp only [PR.ok.injEq] at h
    exact ⟨v, by rw [h.1], h.2.symm⟩
  | error e => rw [hp] at h; exact absurd h (by simp)

theorem pmapRes_ok {α β : Type} {p : P α} {f : α → Option β}
    {input rest : List Char} {w : β} (h : pmapRes p f input = .ok rest w) :
    ∃ v, p input = .ok rest v ∧ f v = some w := by
  cases hp : p input with
  | ok r v =>
    simp only [pmapRes, hp] at h
    cases hf : f v with
    | some b =>
      rw [hf] at h
      simp only [PR.ok.injEq] at h
      exact ⟨v, by rw [h.1], by rw [hf, h.2]⟩
    | none => rw [hf] at h; exact absurd h (by simp)
  | error e => simp [pmapRes, hp] at h

theorem pmapOpt_ok {α β : Type} {p : P α} {f : α → Option β}
    {input rest : List Char} {w : β} (h : pmapOpt p f input = .ok rest w) :
    ∃ v, p input = .ok rest v ∧ f v = some w := by
  cases hp : p input with
  | ok r v =>
    simp only [pmapOpt, hp] at h
    cases hf : f v with
    | some b =>
      rw [hf] at h
      simp only [PR.ok.injEq] at h
      exact ⟨v, by rw [h.1], by rw [hf, h.2]⟩
    | none => rw [hf] at h; exact absurd h (by simp)
  | error e => simp [pmapOpt, hp] at h

theorem ppreceded_ok {α β : Type} {a : P α} {b : P β} {input rest : List Char}
    {w : β} (h : ppreceded a b input = .ok rest w) :
    ∃ mid va, a input = .ok mid va ∧ b mid = .ok rest w := by
  unfold ppreceded at h
  cases ha : a input with
  | ok mid va => rw [ha] at h; exact ⟨mid, va, rfl, h⟩
  | error e => rw [ha] at h; exact absurd h (by simp)

theorem paltGo_ok {α : Type} {input rest : List Char} {v : α} :
    ∀ {ps : List (P α)} {le}, paltGo input ps le = .ok rest v →
      ∃ p ∈ ps, p input = .ok rest v := by
  intro ps
  induction ps with
  | nil => intro le h; simp [paltGo] at h
  | cons p ps ih =>
    intro le h
    unfold paltGo at h
    cases hp : p input with
    | ok r w =>
      rw [hp] at h
      simp only [PR.ok.injEq] at h
      exact ⟨p, List.mem_cons_self _ _, by rw [hp, h.1, h.2]⟩
    | error e =>
      rw [hp] at h
      obtain ⟨q, hq, hqq⟩ := ih h
      exact ⟨q, List.mem_cons_of_mem _ hq, hqq⟩

theorem palt_ok {α : Type} {ps : List (P α)} {input rest : List Char} {v : α}
    (h : palt ps input = .ok rest v) : ∃ p ∈ ps, p input = .ok rest v :=
  paltGo_ok h

theorem paltGo_cons_err {α : Type} {p : P α} {ps : List (P α)}
    {input : List Char} {le e} (h : p input = .error e) :
    paltGo input (p :: ps) le = paltGo input ps e := by
  show (match p input with
        | .ok rest v => PR.ok rest v
        | .error e => paltGo input ps e) = paltGo input ps e
  rw [h]

theorem paltGo_cons_ok {α : Type} {p : P α} {ps : List (P α)}
    {input rest : List Char} {le} {v : α} (h : p input = .ok rest v) :
    paltGo input (p :: ps) le = .ok rest v := by
  unfold paltGo
  rw [h]

theorem paltGo_nil {α : Type} {input : List Char} {le} :
    paltGo (α := α) input [] le = .error (le ++ [(input, .valt)]) := by
  unfold paltGo
  rfl

theorem is_not_ok {arg : List Char} {input rest v : List Char}
    (h : is_not arg input = .ok rest v) :
    input = v ++ rest ∧ v ≠ [] ∧ ∀ c ∈ v, !arg.contains c := by
  simp only [is_not] at h
  by_cases hl : (input.takeWhile (fun c => !arg.contains c)).length = 0
  · rw [if_pos hl] at h
    exact absurd h (by simp)
  · rw [if_neg hl] at h
    simp only [PR.ok.injEq] at h
    obtain ⟨h1, h2⟩ := h
    refine ⟨?_, ?_, ?_⟩
    · rw [← h1, ← h2, List.takeWhile_append_dropWhile]
    · intro hv
      rw [h2, hv] at hl
      exact hl rfl
    · intro c hc
      rw [← h2] at hc
      have h5 := List.mem_takeWhile_imp hc
      exact h5

end PromQL.Str

/-! Arithmetic facts about `toDigit`, `fromStrRadixGo` and `from_str_radix`. -/

namespace PromQL.Str

theorem toDigit_lt {radix : Nat} {c : Char} {d : Nat}
    (h : toDigit radix c = some d) : d < radix := by
  unfold toDigit at h
  split_ifs at h <;> simp_all

theorem fromStrRadixGo_chars {max radix : Nat} :
    ∀ {s : List Char} {acc n : Nat}, fromStrRadixGo max radix acc s = some n →
      ∀ c ∈ s, (toDigit radix c).isSome := by
  intro s
  induction s with
  | nil => intro acc n _ c hc; simp at hc
  | cons x t ih =>
    intro acc n h c hc
    cases hx : toDigit radix x with
    | none => simp [fromStrRadixGo, hx] at h
    | some d =>
      simp only [fromStrRadixGo, hx] at h
      by_cases hle : acc * radix + d ≤ max
      · rw [if_pos hle] at h
        rcases List.mem_cons.mp hc with rfl | hc
        · rw [hx]; rfl
        · exact ih h c hc
      · rw [if_neg hle] at h
        simp at h

theorem fromStrRadixGo_digits {max radix : Nat} (hr : 1 ≤ radix) :
    ∀ {s : List Char} {acc : Nat}, (∀ c ∈ s, (toDigit radix c).isSome) →
      acc * radix ^ s.length + natVal radix s ≤ max →
      fromStrRadixGo max radix acc s =
        some (acc * radix ^ s.length + natVal radix s) := by
  intro s
  induction s with
  | nil =>
    intro acc _ _
    simp [fromStrRadixGo, natVal]
  | cons x t ih =>
    intro acc hd hle
    obtain ⟨d, hx⟩ := Option.isSome_iff_exists.mp (hd x (List.mem_cons_self x t))
    have hval : (acc * radix + d) * radix ^ t.length + natVal radix t =
        acc * radix ^ (x :: t).length + natVal radix (x :: t) := by
      simp only [natVal, List.length_cons, hx, Option.getD_some, pow_succ]
      ring
    have hle' : (acc * radix + d) * radix ^ t.length + natVal radix t ≤ max := by
      rw [hval]; exact hle
    have hacc : acc * radix + d ≤ max := by
      have h1 : 1 ≤ radix ^ t.length := Nat.one_le_pow _ _ (by omega)
      have h2 : acc * radix + d ≤ (acc * radix + d) * radix ^ t.length :=
        Nat.le_mul_of_pos_right _ (by omega)
      omega
    simp only [fromStrRadixGo, hx, if_pos hacc]
    rw [ih (fun c hc => hd c (List.mem_cons_of_mem _ hc)) hle']
    rw [hval]

theorem fromStrRadixGo_none {max radix : Nat} :
    ∀ {s : List Char} {acc : Nat}, (∀ c ∈ s, (toDigit radix c).isSome) →
      acc ≤ max → max < acc * radix ^ s.length + natVal radix s →
      fromStrRadixGo max radix acc s = none := by
  intro s
  induction s with
  | nil =>
    intro acc _ hacc hgt
    simp only [List.length_nil, pow_zero, Nat.mul_one, natVal] at hgt
    omega
  | cons x t ih =>
    intro acc hd hacc hgt
    obtain ⟨d, hx⟩ := Option.isSome_iff_exists.mp (hd x (List.mem_cons_self x t))
    have hval : (acc * radix + d) * radix ^ t.length + natVal radix t =
        acc * radix ^ (x :: t).length + natVal radix (x :: t) := by
      simp only [natVal, List.length_cons, hx, Option.getD_some, pow_succ]
      ring
    simp only [fromStrRadixGo, hx]
    by_cases hle : acc * radix + d ≤ max
    · rw [if_pos hle]
      exact ih (fun c hc => hd c (List.mem_cons_of_mem _ hc)) hle
        (by rw [hval]; exact hgt)
    · rw [if_neg hle]

theorem natVal_lt {radix : Nat} :
    ∀ {s : List Char}, (∀ c ∈ s, (toDigit radix c).isSome) →
      natVal radix s < radix ^ s.length := by
  intro s
  induction s with
  | nil => intro _; simp [natVal]
  | cons x t ih =>
    intro hd
    obtain ⟨d, hx⟩ := Option.isSome_iff_exists.mp (hd x (List.mem_cons_self x t))
    have hdr : d < radix := toDigit_lt hx
    have ht : natVal radix t < radix ^ t.length :=
      ih (fun c hc => hd c (List.mem_cons_of_mem _ hc))
    have hstep : (d + 1) * radix ^ t.length ≤ radix * radix ^ t.length :=
      Nat.mul_le_mul_right _ (by omega)
    calc natVal radix (x :: t)
        = d * radix ^ t.length + natVal radix t := by
          simp [natVal, hx]
      _ < (d + 1) * radix ^ t.length := by
          rw [Nat.add_mul, Nat.one_mul]
          omega
      _ ≤ radix * radix ^ t.length := hstep
      _ = radix ^ (x :: t).length := by
          rw [List.length_cons, pow_succ]
          ring

theorem toDigit_plus_none (radix : Nat) : toDigit radix '+' = none := by
  unfold toDigit
  rw [if_neg (by decide), if_neg (by decide), if_neg (by decide)]

theorem from_str_radix_digits {max radix : Nat} {s : List Char} (hr : 1 ≤ radix)
    (hd : ∀ c ∈ s, (toDigit radix c).isSome) (hs : s ≠ [])
    (hle : natVal radix s ≤ max) :
    from_str_radix max radix s = some (natVal radix s) := by
  cases s with
  | nil => exact absurd rfl hs
  | cons x t =>
    have hplus : ¬(x = '+') := by
      intro hx
      have h1 := hd x (List.mem_cons_self x t)
      rw [hx, toDigit_plus_none] at h1
      simp at h1
    simp only [from_str_radix, if_neg hplus]
    have h9 := fromStrRadixGo_digits hr hd
      (show 0 * radix ^ (x :: t).length + natVal radix (x :: t) ≤ max by
        simpa using hle)
    simpa using h9

theorem from_str_radix_overflow {max radix : Nat} {s : List Char}
    (hd : ∀ c ∈ s, (toDigit radix c).isSome) (hs : s ≠ [])
    (hgt : max < natVal radix s) :
    from_str_radix max radix s = none := by
  cases s with
  | nil => exact absurd rfl hs
  | cons x t =>
    have hplus : ¬(x = '+') := by
      intro hx
      have h1 := hd x (List.mem_cons_self x t)
      rw [hx, toDigit_plus_none] at h1
      simp at h1
    simp only [from_str_radix, if_neg hplus]
    exact fromStrRadixGo_none hd (Nat.zero_le _) (by simpa using hgt)

theorem from_str_radix_rustNumOk {max radix : Nat} {s : List Char} {n : Nat}
    (h : from_str_radix max radix s = some n) : rustNumOk radix s = true := by
  cases s with
  | nil => simp [from_str_radix] at h
  | cons x t =>
    by_cases hx : x = '+'
    · subst hx
      cases t with
      | nil => simp [from_str_radix] at h
      | cons y u =>
        simp only [from_str_radix, if_pos rfl] at h
        have hchars := fromStrRadixGo_chars h
        simp [rustNumOk, List.all_eq_true]
        exact ⟨hchars y (List.mem_cons_self y u),
          fun c hc => hchars c (List.mem_cons_of_mem _ hc)⟩
    · simp only [from_str_radix, if_neg hx] at h
      have hchars := fromStrRadixGo_chars h
      simp [rustNumOk, hx, List.all_eq_true]
      exact ⟨hchars x (List.mem_cons_self x t),
        fun c hc => hchars c (List.mem_cons_of_mem _ hc)⟩

theorem ptake_exact {len : Nat} {s rest : List Char} (hlen : s.length = len) :
    ptake len (s ++ rest) = .ok rest s := by
  unfold ptake
  rw [if_pos (by rw [List.length_append]; omega)]
  subst hlen
  rw [List.drop_left, List.take_left]

theorem flr_eval_some {max len radix : Nat} {s rest : List Char} {n : Nat}
    (hlen : s.length = len) (hf : from_str_radix max radix s = some n) :
    fixed_length_radix max len radix (s ++ rest) = .ok rest n := by
  simp only [fixed_length_radix, pmapRes, ptake_exact hlen, hf]

theorem flr_eval_none {max len radix : Nat} {s rest : List Char}
    (hlen : s.length = len) (hf : from_str_radix max radix s = none) :
    fixed_length_radix max len radix (s ++ rest) =
      .error [(s ++ rest, .vmapRes)] := by
  simp only [fixed_length_radix, pmapRes, ptake_exact hlen, hf]

theorem flr_short {max len radix : Nat} {input : List Char}
    (h : input.length < len) :
    fixed_length_radix max len radix input = .error [(input, .veof)] := by
  simp only [fixed_length_radix, pmapRes, ptake, if_neg (by omega : ¬len ≤ input.length)]

end PromQL.Str

/-! Evaluation lemmas stepping `rune` through its alternation. -/

namespace PromQL.Str

theorem pmap_err {α β : Type} {p : P α} {f : α → β} {input : List Char} {e}
    (h : p input = .error e) : pmap p f input = .error e := by
  simp [pmap, h]

theorem pmap_ok_of {α β : Type} {p : P α} {f : α → β} {input rest : List Char}
    {v : α} (h : p input = .ok rest v) : pmap p f input = .ok rest (f v) := by
  simp [pmap, h]

theorem pmapOpt_ok_of {α β : Type} {p : P α} {f : α → Option β}
    {input rest : List Char} {v : α} {b : β} (h : p input = .ok rest v)
    (hf : f v = some b) : pmapOpt p f input = .ok rest b := by
  simp [pmapOpt, h, hf]

theorem pmapOpt_none_of {α β : Type} {p : P α} {f : α → Option β}
    {input rest : List Char} {v : α} (h : p input = .ok rest v)
    (hf : f v = none) : pmapOpt p f input = .error [(input, .vmapOpt)] := by
  simp [pmapOpt, h, hf]

theorem ppreceded_pchar_cons {β : Type} {c : Char} {b : P β} {t : List Char} :
    ppreceded (pchar c) b (c :: t) = b t := by
  simp [ppreceded, pchar]

theorem pmap_pchar_err (c x : Char) (h : ¬(x = c)) {t : List Char}
    {f : Char → List Nat} :
    pmap (pchar c) f (x :: t) = .error [(x :: t, .vchar c)] := by
  simp [pmap, pchar, h]

theorem pmap_preceded_pchar_err (c x : Char) (h : ¬(x = c)) {t : List Char}
    {q : P Nat} {f : Nat → List Nat} :
    pmap (ppreceded (pchar c) q) f (x :: t) = .error [(x :: t, .vchar c)] := by
  simp [pmap, ppreceded, pchar, h]

theorem pmapOpt_preceded_pchar_err (c x : Char) (h : ¬(x = c)) {t : List Char}
    {q : P Nat} {f : Nat → Option (List Nat)} :
    pmapOpt (ppreceded (pchar c) q) f (x :: t) =
      .error [(x :: t, .vchar c)] := by
  simp [pmapOpt, ppreceded, pchar, h]

theorem from_str_radix_head_bad {max radix : Nat} {x : Char} {cs : List Char}
    (hx : toDigit radix x = none) (hplus : ¬(x = '+')) :
    from_str_radix max radix (x :: cs) = none := by
  simp only [from_str_radix, if_neg hplus, fromStrRadixGo, hx]

theorem oct_branch_err (x : Char) (hx : toDigit 8 x = none)
    (hplus : ¬(x = '+')) {t : List Char} (hlen : 2 ≤ t.length)
    {f : Nat → List Nat} :
    pmap (fixed_length_radix u8Max 3 8) f (x :: t) =
      .error [(x :: t, .vmapRes)] := by
  have hsplit : x :: t = (x :: t.take 2) ++ t.drop 2 := by
    simp [List.take_append_drop]
  rw [hsplit]
  exact pmap_err (flr_eval_none
    (by simp only [List.length_cons, List.length_take]; omega)
    (from_str_radix_head_bad hx hplus))

theorem rune_cons {t : List Char} : rune ('\\' :: t) = palt runeAlts t := by
  simp [rune, ppreceded, pchar]

theorem ne_digit_of_isSome {radix : Nat} {c : Char} (d : Char)
    (h : (toDigit radix c).isSome = true)
    (hd : (toDigit radix d).isSome = false) : ¬(c = d) := by
  intro he
  rw [he, hd] at h
  exact absurd h (by simp)

end PromQL.Str

/-! Full evaluation of `rune` on `\uHHHH` and `\UHHHHHHHH` escapes. -/

namespace PromQL.Str

theorem hex4_fs {c1 c2 c3 c4 : Char}
    (h1 : (toDigit 16 c1).isSome = true) (h2 : (toDigit 16 c2).isSome = true)
    (h3 : (toDigit 16 c3).isSome = true) (h4 : (toDigit 16 c4).isSome = true) :
    from_str_radix u32Max 16 [c1, c2, c3, c4] =
      some (natVal 16 [c1, c2, c3, c4]) := by
  have hd4 : ∀ c ∈ [c1, c2, c3, c4], (toDigit 16 c).isSome := by
    intro c hc
    simp only [List.mem_cons, List.not_mem_nil, or_false] at hc
    rcases hc with rfl | rfl | rfl | rfl
    exacts [h1, h2, h3, h4]
  have hlt := natVal_lt hd4
  have hpow : (16 : Nat) ^ ([c1, c2, c3, c4] : List Char).length = 65536 := by
    norm_num
  rw [hpow] at hlt
  exact from_str_radix_digits (by omega) hd4 (by simp)
    (show _ ≤ 4294967295 by omega)

theorem hex8_fs {c1 c2 c3 c4 c5 c6 c7 c8 : Char}
    (h1 : (toDigit 16 c1).isSome = true) (h2 : (toDigit 16 c2).isSome = true)
    (h3 : (toDigit 16 c3).isSome = true) (h4 : (toDigit 16 c4).isSome = true)
    (h5 : (toDigit 16 c5).isSome = true) (h6 : (toDigit 16 c6).isSome = true)
    (h7 : (toDigit 16 c7).isSome = true) (h8 : (toDigit 16 c8).isSome = true) :
    from_str_radix u32Max 16 [c1, c2, c3, c4, c5, c6, c7, c8] =
      some (natVal 16 [c1, c2, c3, c4, c5, c6, c7, c8]) := by
  have hd8 : ∀ c ∈ [c1, c2, c3, c4, c5, c6, c7, c8], (toDigit 16 c).isSome := by
    intro c hc
    simp only [List.mem_cons, List.not_mem_nil, or_false] at hc
    rcases hc with rfl | rfl | rfl | rfl | rfl | rfl | rfl | rfl
    exacts [h1, h2, h3, h4, h5, h6, h7, h8]
  have hlt := natVal_lt hd8
  have hpow :
      (16 : Nat) ^ ([c1, c2, c3, c4, c5, c6, c7, c8] : List Char).length =
        4294967296 := by norm_num
  rw [hpow] at hlt
  exact from_str_radix_digits (by omega) hd8 (by simp)
    (show _ ≤ 4294967295 by omega)

theorem rune_u_eval_ok {c1 c2 c3 c4 : Char} {rest : List Char} {bs : List Nat}
    (h1 : (toDigit 16 c1).isSome = true) (h2 : (toDigit 16 c2).isSome = true)
    (h3 : (toDigit 16 c3).isSome = true) (h4 : (toDigit 16 c4).isSome = true)
    (hval : validate_unicode_scalar (natVal 16 [c1, c2, c3, c4]) = some bs) :
    rune ('\\' :: 'u' :: c1 :: c2 :: c3 :: c4 :: rest) = .ok rest bs := by
  rw [rune_cons]
  simp only [palt, runeAlts]
  rw [paltGo_cons_err (pmap_pchar_err 'a' 'u' (by decide)),
      paltGo_cons_err (pmap_pchar_err 'b' 'u' (by decide)),
      paltGo_cons_err (pmap_pchar_err 'f' 'u' (by decide)),
      paltGo_cons_err (pmap_pchar_err 'n' 'u' (by decide)),
      paltGo_cons_err (pmap_pchar_err 'r' 'u' (by decide)),
      paltGo_cons_err (pmap_pchar_err 't' 'u' (by decide)),
      paltGo_cons_err (pmap_pchar_err 'v' 'u' (by decide)),
      paltGo_cons_err (pmap_pchar_err '\\' 'u' (by decide)),
      paltGo_cons_err (pmap_pchar_err squote 'u' (by decide)),
      paltGo_cons_err (pmap_pchar_err '"' 'u' (by decide)),
      paltGo_cons_err (oct_branch_err 'u' (by decide) (by decide)
        (by simp only [List.length_cons]; omega)),
      paltGo_cons_err (pmap_preceded_pchar_err 'x' 'u' (by decide)),
      paltGo_cons_ok (pmapOpt_ok_of
        (by rw [ppreceded_pchar_cons]
            exact flr_eval_some (by simp) (hex4_fs h1 h2 h3 h4))
        hval)]

theorem rune_u_eval_err {c1 c2 c3 c4 : Char} {rest : List Char}
    (h1 : (toDigit 16 c1).isSome = true) (h2 : (toDigit 16 c2).isSome = true)
    (h3 : (toDigit 16 c3).isSome = true) (h4 : (toDigit 16 c4).isSome = true)
    (hval : validate_unicode_scalar (natVal 16 [c1, c2, c3, c4]) = none) :
    rune ('\\' :: 'u' :: c1 :: c2 :: c3 :: c4 :: rest) =
      .error [('u' :: c1 :: c2 :: c3 :: c4 :: rest, .vchar 'U'),
              ('u' :: c1 :: c2 :: c3 :: c4 :: rest, .valt)] := by
  rw [rune_cons]
  simp only [palt, runeAlts]
  rw [paltGo_cons_err (pmap_pchar_err 'a' 'u' (by decide)),
      paltGo_cons_err (pmap_pchar_err 'b' 'u' (by decide)),
      paltGo_cons_err (pmap_pchar_err 'f' 'u' (by decide)),
      paltGo_cons_err (pmap_pchar_err 'n' 'u' (by decide)),
      paltGo_cons_err (pmap_pchar_err 'r' 'u' (by decide)),
      paltGo_cons_err (pmap_pchar_err 't' 'u' (by decide)),
      paltGo_cons_err (pmap_pchar_err 'v' 'u' (by decide)),
      paltGo_cons_err (pmap_pchar_err '\\' 'u' (by decide)),
      paltGo_cons_err (pmap_pchar_err squote 'u' (by decide)),
      paltGo_cons_err (pmap_pchar_err '"' 'u' (by decide)),
      paltGo_cons_err (oct_branch_err 'u' (by decide) (by decide)
        (by simp only [List.length_cons]; omega)),
      paltGo_cons_err (pmap_preceded_pchar_err 'x' 'u' (by decide)),
      paltGo_cons_err (pmapOpt_none_of
        (by rw [ppreceded_pchar_cons]
            exact flr_eval_some (by simp) (hex4_fs h1 h2 h3 h4))
        hval),
      paltGo_cons_err (pmapOpt_preceded_pchar_err 'U' 'u' (by decide)),
      paltGo_nil]
  rfl

theorem rune_U_eval_ok {c1 c2 c3 c4 c5 c6 c7 c8 : Char} {rest : List Char}
    {bs : List Nat}
    (h1 : (toDigit 16 c1).isSome = true) (h2 : (toDigit 16 c2).isSome = true)
    (h3 : (toDigit 16 c3).isSome = true) (h4 : (toDigit 16 c4).isSome = true)
    (h5 : (toDigit 16 c5).isSome = true) (h6 : (toDigit 16 c6).isSome = true)
    (h7 : (toDigit 16 c7).isSome = true) (h8 : (toDigit 16 c8).isSome = true)
    (hval : validate_unicode_scalar
      (natVal 16 [c1, c2, c3, c4, c5, c6, c7, c8]) = some bs) :
    rune ('\\' :: 'U' :: c1 :: c2 :: c3 :: c4 :: c5 :: c6 :: c7 :: c8 :: rest) =
      .ok rest bs := by
  rw [rune_cons]
  simp only [palt, runeAlts]
  rw [paltGo_cons_err (pmap_pchar_err 'a' 'U' (by decide)),
      paltGo_cons_err (pmap_pchar_err 'b' 'U' (by decide)),
      paltGo_cons_err (pmap_pchar_err 'f' 'U' (by decide)),
      paltGo_cons_err (pmap_pchar_err 'n' 'U' (by decide)),
      paltGo_cons_err (pmap_pchar_err 'r' 'U' (by decide)),
      paltGo_cons_err (pmap_pchar_err 't' 'U' (by decide)),
      paltGo_cons_err (pmap_pchar_err 'v' 'U' (by decide)),
      paltGo_cons_err (pmap_pchar_err '\\' 'U' (by decide)),
      paltGo_cons_err (pmap_pchar_err squote 'U' (by decide)),
      paltGo_cons_err (pmap_pchar_err '"' 'U' (by decide)),
      paltGo_cons_err (oct_branch_err 'U' (by decide) (by decide)
        (by simp only [List.length_cons]; omega)),
      paltGo_cons_err (pmap_preceded_pchar_err 'x' 'U' (by decide)),
      paltGo_cons_err (pmapOpt_preceded_pchar_err 'u' 'U' (by decide)),
      paltGo_cons_ok (pmapOpt_ok_of
        (by rw [ppreceded_pchar_cons]
            exact flr_eval_some (by simp) (hex8_fs h1 h2 h3 h4 h5 h6 h7 h8))
        hval)]

theorem rune_U_eval_err {c1 c2 c3 c4 c5 c6 c7 c8 : Char} {rest : List Char}
    (h1 : (toDigit 16 c1).isSome = true) (h2 : (toDigit 16 c2).isSome = true)
    (h3 : (toDigit 16 c3).isSome = true) (h4 : (toDigit 16 c4).isSome = true)
    (h5 : (toDigit 16 c5).isSome = true) (h6 : (toDigit 16 c6).isSome = true)
    (h7 : (toDigit 16 c7).isSome = true) (h8 : (toDigit 16 c8).isSome = true)
    (hval : validate_unicode_scalar
      (natVal 16 [c1, c2, c3, c4, c5, c6, c7, c8]) = none) :
    rune ('\\' :: 'U' :: c1 :: c2 :: c3 :: c4 :: c5 :: c6 :: c7 :: c8 :: rest) =
      .error [('U' :: c1 :: c2 :: c3 :: c4 :: c5 :: c6 :: c7 :: c8 :: rest,
                .vmapOpt),
              ('U' :: c1 :: c2 :: c3 :: c4 :: c5 :: c6 :: c7 :: c8 :: rest,
                .valt)] := by
  rw [rune_cons]
  simp only [palt, runeAlts]
  rw [paltGo_cons_err (pmap_pchar_err 'a' 'U' (by decide)),
      paltGo_cons_err (pmap_pchar_err 'b' 'U' (by decide)),
      paltGo_cons_err (pmap_pchar_err 'f' 'U' (by decide)),
      paltGo_cons_err (pmap_pchar_err 'n' 'U' (by decide)),
      paltGo_cons_err (pmap_pchar_err 'r' 'U' (by decide)),
      paltGo_cons_err (pmap_pchar_err 't' 'U' (by decide)),
      paltGo_cons_err (pmap_pchar_err 'v' 'U' (by decide)),
      paltGo_cons_err (pmap_pchar_err '\\' 'U' (by decide)),
      paltGo_cons_err (pmap_pchar_err squote 'U' (by decide)),
      paltGo_cons_err (pmap_pchar_err '"' 'U' (by decide)),
      paltGo_cons_err (oct_branch_err 'U' (by decide) (by decide)
        (by simp only [List.length_cons]; omega)),
      paltGo_cons_err (pmap_preceded_pchar_err 'x' 'U' (by decide)),
      paltGo_cons_err (pmapOpt_preceded_pchar_err 'u' 'U' (by decide)),
      paltGo_cons_err (pmapOpt_none_of
        (by rw [ppreceded_pchar_cons]
            exact flr_eval_some (by simp) (hex8_fs h1 h2 h3 h4 h5 h6 h7 h8))
        hval),
      paltGo_nil]
  rfl

end PromQL.Str

/-! Evaluation of the octal alternative of `rune` on three octal digits. -/

namespace PromQL.Str

theorem oct_digits_ok {c1 c2 c3 : Char} {rest : List Char}
    (hd3 : ∀ c ∈ [c1, c2, c3], (toDigit 8 c).isSome)
    (hle : natVal 8 [c1, c2, c3] ≤ 255) {f : Nat → List Nat} :
    pmap (fixed_length_radix u8Max 3 8) f (c1 :: c2 :: c3 :: rest) =
      .ok rest (f (natVal 8 [c1, c2, c3])) := by
  have heq : c1 :: c2 :: c3 :: rest = [c1, c2, c3] ++ rest := rfl
  rw [heq]
  exact pmap_ok_of (flr_eval_some (by simp)
    (from_str_radix_digits (by omega) hd3 (by simp) hle))

theorem oct_digits_err {c1 c2 c3 : Char} {rest : List Char}
    (hd3 : ∀ c ∈ [c1, c2, c3], (toDigit 8 c).isSome)
    (hgt : 255 < natVal 8 [c1, c2, c3]) {f : Nat → List Nat} :
    pmap (fixed_length_radix u8Max 3 8) f (c1 :: c2 :: c3 :: rest) =
      .error [(c1 :: c2 :: c3 :: rest, .vmapRes)] := by
  have heq : c1 :: c2 :: c3 :: rest = [c1, c2, c3] ++ rest := rfl
  rw [heq]
  exact pmap_err (flr_eval_none (by simp)
    (from_str_radix_overflow hd3 (by simp) hgt))

end PromQL.Str

namespace PromQL.Str

/-- C4: for every `\uHHHH` escape (exactly 4 hex digits) and every
`\UHHHHHHHH` escape (exactly 8 hex digits), the rune decoder yields exactly
the UTF-8 byte encoding of the denoted code point if and only if that value is
a valid Unicode scalar value (not a surrogate in 0xD800–0xDFFF and not above
0x10FFFF); otherwise that alternative fails, so `\uD801` and `\UdeadDEAD` fail
to decode. -/
theorem c4_unicode_escape_iff :
    (∀ (c1 c2 c3 c4 : Char) (rest : List Char),
      (toDigit 16 c1).isSome = true → (toDigit 16 c2).isSome = true →
      (toDigit 16 c3).isSome = true → (toDigit 16 c4).isSome = true →
      (¬(0xD800 ≤ natVal 16 [c1, c2, c3, c4] ∧
            natVal 16 [c1, c2, c3, c4] ≤ 0xDFFF) ∧
          natVal 16 [c1, c2, c3, c4] ≤ 0x10FFFF →
        rune ('\\' :: 'u' :: c1 :: c2 :: c3 :: c4 :: rest) =
          .ok rest (utf8Encode (natVal 16 [c1, c2, c3, c4]))) ∧
      ((0xD800 ≤ natVal 16 [c1, c2, c3, c4] ∧
            natVal 16 [c1, c2, c3, c4] ≤ 0xDFFF) ∨
          0x10FFFF < natVal 16 [c1, c2, c3, c4] →
        isErrorB (rune ('\\' :: 'u' :: c1 :: c2 :: c3 :: c4 :: rest)) = true)) ∧
    (∀ (c1 c2 c3 c4 c5 c6 c7 c8 : Char) (rest : List Char),
      (toDigit 16 c1).isSome = true → (toDigit 16 c2).isSome = true →
      (toDigit 16 c3).isSome = true → (toDigit 16 c4).isSome = true →
      (toDigit 16 c5).isSome = true → (toDigit 16 c6).isSome = true →
      (toDigit 16 c7).isSome = true → (toDigit 16 c8).isSome = true →
      (¬(0xD800 ≤ natVal 16 [c1, c2, c3, c4, c5, c6, c7, c8] ∧
            natVal 16 [c1, c2, c3, c4, c5, c6, c7, c8] ≤ 0xDFFF) ∧
          natVal 16 [c1, c2, c3, c4, c5, c6, c7, c8] ≤ 0x10FFFF →
        rune ('\\' :: 'U' :: c1 :: c2 :: c3 :: c4 :: c5 :: c6 :: c7 :: c8 ::
            rest) =
          .ok rest (utf8Encode (natVal 16 [c1, c2, c3, c4, c5, c6, c7, c8]))) ∧
      ((0xD800 ≤ natVal 16 [c1, c2, c3, c4, c5, c6, c7, c8] ∧
            natVal 16 [c1, c2, c3, c4, c5, c6, c7, c8] ≤ 0xDFFF) ∨
          0x10FFFF < natVal 16 [c1, c2, c3, c4, c5, c6, c7, c8] →
        isErrorB (rune ('\\' :: 'U' :: c1 :: c2 :: c3 :: c4 :: c5 :: c6 ::
          c7 :: c8 :: rest)) = true)) ∧
    isErrorB (rune ("\\uD801".toList)) = true ∧
    isErrorB (rune ("\\UdeadDEAD".toList)) = true := by
  refine ⟨?_, ?_, by decide, by decide⟩
  · intro c1 c2 c3 c4 rest h1 h2 h3 h4
    constructor
    · intro hv
      obtain ⟨hs, hb⟩ := hv
      exact rune_u_eval_ok h1 h2 h3 h4
        (by unfold validate_unicode_scalar; rw [if_neg (by omega)])
    · intro hv
      rw [rune_u_eval_err h1 h2 h3 h4
        (by unfold validate_unicode_scalar; rw [if_pos (by omega)])]
      rfl
  · intro c1 c2 c3 c4 c5 c6 c7 c8 rest h1 h2 h3 h4 h5 h6 h7 h8
    constructor
    · intro hv
      obtain ⟨hs, hb⟩ := hv
      exact rune_U_eval_ok h1 h2 h3 h4 h5 h6 h7 h8
        (by unfold validate_unicode_scalar; rw [if_neg (by omega)])
    · intro hv
      rw [rune_U_eval_err h1 h2 h3 h4 h5 h6 h7 h8
        (by unfold validate_unicode_scalar; rw [if_pos (by omega)])]
      rfl

/-- Witness for C4: `A` decodes to the single byte 0x41 = `A`. -/
theorem c4_unicode_escape_iff_witness :
    rune ("\\u0041".toList) =
      .ok [] (utf8Encode (natVal 16 ['0', '0', '4', '1'])) ∧
    utf8Encode (natVal 16 ['0', '0', '4', '1']) = [0x41] :=
  ⟨(c4_unicode_escape_iff.1 '0' '0' '4' '1' [] (by decide) (by decide)
      (by decide) (by decide)).1 (by decide), by decide⟩

/-- C10: for every three-octal-digit escape `\NNN` whose value exceeds 255 the
octal alternative fails (no wrapped or truncated byte), and the whole decoder
rejects the escape; values 0 through 0o377 decode to the single denoted
byte. -/
theorem c10_octal_overflow :
    ∀ (c1 c2 c3 : Char) (rest : List Char),
      (toDigit 8 c1).isSome = true → (toDigit 8 c2).isSome = true →
      (toDigit 8 c3).isSome = true →
      (255 < natVal 8 [c1, c2, c3] →
        isErrorB (rune ('\\' :: c1 :: c2 :: c3 :: rest)) = true) ∧
      (natVal 8 [c1, c2, c3] ≤ 255 →
        rune ('\\' :: c1 :: c2 :: c3 :: rest) =
          .ok rest [natVal 8 [c1, c2, c3]]) := by
  intro c1 c2 c3 rest h1 h2 h3
  have hd3 : ∀ c ∈ [c1, c2, c3], (toDigit 8 c).isSome := by
    intro c hc
    simp only [List.mem_cons, List.not_mem_nil, or_false] at hc
    rcases hc with rfl | rfl | rfl
    exacts [h1, h2, h3]
  constructor
  · intro hgt
    rw [rune_cons]
    simp only [palt, runeAlts]
    rw [paltGo_cons_err (pmap_pchar_err 'a' c1
          (ne_digit_of_isSome 'a' h1 (by decide))),
        paltGo_cons_err (pmap_pchar_err 'b' c1
          (ne_digit_of_isSome 'b' h1 (by decide))),
        paltGo_cons_err (pmap_pchar_err 'f' c1
          (ne_digit_of_isSome 'f' h1 (by decide))),
        paltGo_cons_err (pmap_pchar_err 'n' c1
          (ne_digit_of_isSome 'n' h1 (by decide))),
        paltGo_cons_err (pmap_pchar_err 'r' c1
          (ne_digit_of_isSome 'r' h1 (by decide))),
        paltGo_cons_err (pmap_pchar_err 't' c1
          (ne_digit_of_isSome 't' h1 (by decide))),
        paltGo_cons_err (pmap_pchar_err 'v' c1
          (ne_digit_of_isSome 'v' h1 (by decide))),
        paltGo_cons_err (pmap_pchar_err '\\' c1
          (ne_digit_of_isSome '\\' h1 (by decide))),
        paltGo_cons_err (pmap_pchar_err squote c1
          (ne_digit_of_isSome squote h1 (by decide))),
        paltGo_cons_err (pmap_pchar_err '"' c1
          (ne_digit_of_isSome '"' h1 (by decide))),
        paltGo_cons_err (oct_digits_err hd3 hgt),
        paltGo_cons_err (pmap_preceded_pchar_err 'x' c1
          (ne_digit_of_isSome 'x' h1 (by decide))),
        paltGo_cons_err (pmapOpt_preceded_pchar_err 'u' c1
          (ne_digit_of_isSome 'u' h1 (by decide))),
        paltGo_cons_err (pmapOpt_preceded_pchar_err 'U' c1
          (ne_digit_of_isSome 'U' h1 (by decide))),
        paltGo_nil]
    rfl
  · intro hle
    rw [rune_cons]
    simp only [palt, runeAlts]
    rw [paltGo_cons_err (pmap_pchar_err 'a' c1
          (ne_digit_of_isSome 'a' h1 (by decide))),
        paltGo_cons_err (pmap_pchar_err 'b' c1
          (ne_digit_of_isSome 'b' h1 (by decide))),
        paltGo_cons_err (pmap_pchar_err 'f' c1
          (ne_digit_of_isSome 'f' h1 (by decide))),
        paltGo_cons_err (pmap_pchar_err 'n' c1
          (ne_digit_of_isSome 'n' h1 (by decide))),
        paltGo_cons_err (pmap_pchar_err 'r' c1
          (ne_digit_of_isSome 'r' h1 (by decide))),
        paltGo_cons_err (pmap_pchar_err 't' c1
          (ne_digit_of_isSome 't' h1 (by decide))),
        paltGo_cons_err (pmap_pchar_err 'v' c1
          (ne_digit_of_isSome 'v' h1 (by decide))),
        paltGo_cons_err (pmap_pchar_err '\\' c1
          (ne_digit_of_isSome '\\' h1 (by decide))),
        paltGo_cons_err (pmap_pchar_err squote c1
          (ne_digit_of_isSome squote h1 (by decide))),
        paltGo_cons_err (pmap_pchar_err '"' c1
          (ne_digit_of_isSome '"' h1 (by decide))),
        paltGo_cons_ok (oct_digits_ok hd3 hle)]

/-- Witness for C10: `\400` is rejected while `\101` decodes to byte 0x41. -/
theorem c10_octal_overflow_witness :
    isErrorB (rune ("\\400".toList)) = true ∧
    rune ("\\101".toList) = .ok [] [natVal 8 ['1', '0', '1']] :=
  ⟨(c10_octal_overflow '4' '0' '0' [] (by decide) (by decide) (by decide)).1
      (by decide),
   (c10_octal_overflow '1' '0' '1' [] (by decide) (by decide) (by decide)).2
      (by decide)⟩

end PromQL.Str

namespace PromQL.Str

/-- C5 (counterexample): the input `\x+1` has a consumed run `+1` containing
the character `+`, which is not a hex digit, yet the `\xHH` alternative
succeeds and decodes to the byte 0x01, because Rust `from_str_radix` accepts a
leading `+` sign. -/
theorem c5_counterexample_plus_sign :
    rune ("\\x+1".toList) = .ok [] [1] ∧
    rune ("\\+77".toList) = .ok [] [63] := by
  refine ⟨by decide, by decide⟩

/-- C5 (amended): every numeric escape requires exactly the specified count of
characters, and the consumed run must be an optional leading `+` sign followed
by digits of the radix filling the rest of the width (Rust `from_str_radix`
accepts the sign, so `\x+1` decodes to 0x01); a run that is shorter than
required, or whose shape is not (optional `+`)(digits only), makes the numeric
alternative fail, so `\x1` and `\xxx` do not decode as numeric escapes. -/
theorem c5_exact_digit_count_amended :
    (∀ (max len radix : Nat) (input : List Char), input.length < len →
      isErrorB (fixed_length_radix max len radix input) = true) ∧
    (∀ (max len radix : Nat) (s rest : List Char), s.length = len →
      rustNumOk radix s = false →
      isErrorB (fixed_length_radix max len radix (s ++ rest)) = true) ∧
    isErrorB (rune ("\\x1".toList)) = true ∧
    isErrorB (rune ("\\xxx".toList)) = true ∧
    rune ("\\x+1".toList) = .ok [] [1] := by
  refine ⟨?_, ?_, by decide, by decide, by decide⟩
  · intro max len radix input hlen
    rw [flr_short hlen]
    rfl
  · intro max len radix s rest hlen hbad
    cases hf : from_str_radix max radix s with
    | some n =>
      have := from_str_radix_rustNumOk hf
      rw [hbad] at this
      exact absurd this (by simp)
    | none =>
      rw [flr_eval_none hlen hf]
      rfl

/-- Witness for C5 (amended): a two-character non-digit run (`zz`) and a
too-short run (`1`) both make the `\xHH` numeric core fail. -/
theorem c5_exact_digit_count_amended_witness :
    isErrorB (fixed_length_radix u8Max 2 16 ['z', 'z']) = true ∧
    isErrorB (fixed_length_radix u8Max 2 16 ['1']) = true :=
  ⟨c5_exact_digit_count_amended.2.1 u8Max 2 16 ['z', 'z'] [] (by decide)
      (by decide),
   c5_exact_digit_count_amended.1 u8Max 2 16 ['1'] (by decide)⟩

/-- C8 (counterexample): for the syntactically well-formed surrogate escape
`\uD801` the decoder reports exactly the error kinds Char('U') then Alt — the
same kinds as the plain syntax error `\xxx`, with no MapOpt frame — so the
reported failure is not distinguishable from a plain syntax error. -/
theorem c8_counterexample_masked_surrogate :
    errKinds (rune ("\\uD801".toList)) = [.vchar 'U', .valt] ∧
    errKinds (rune ("\\xxx".toList)) = [.vchar 'U', .valt] ∧
    (VKind.vmapOpt ∈ errKinds (rune ("\\uD801".toList))) = False := by
  refine ⟨by decide, by decide, by simp; decide⟩

/-- C8 (amended): only for `\U` escapes is the invalid-scalar failure reported
as a semantic rejection: every well-formed 8-hex-digit `\U` escape denoting a
surrogate or out-of-range value reports the frames MapOpt then Alt,
distinguishable from plain syntax errors; for `\u` escapes the semantic
rejection is masked by the subsequent `\U` alternative, and the reported kinds
are the syntax kinds Char('U') then Alt. -/
theorem c8_semantic_rejection_amended :
    (∀ (c1 c2 c3 c4 c5 c6 c7 c8 : Char) (rest : List Char),
      (toDigit 16 c1).isSome = true → (toDigit 16 c2).isSome = true →
      (toDigit 16 c3).isSome = true → (toDigit 16 c4).isSome = true →
      (toDigit 16 c5).isSome = true → (toDigit 16 c6).isSome = true →
      (toDigit 16 c7).isSome = true → (toDigit 16 c8).isSome = true →
      (0xD800 ≤ natVal 16 [c1, c2, c3, c4, c5, c6, c7, c8] ∧
          natVal 16 [c1, c2, c3, c4, c5, c6, c7, c8] ≤ 0xDFFF) ∨
        0x10FFFF < natVal 16 [c1, c2, c3, c4, c5, c6, c7, c8] →
      errKinds (rune ('\\' :: 'U' :: c1 :: c2 :: c3 :: c4 :: c5 :: c6 :: c7 ::
        c8 :: rest)) = [.vmapOpt, .valt]) ∧
    (∀ (c1 c2 c3 c4 : Char) (rest : List Char),
      (toDigit 16 c1).isSome = true → (toDigit 16 c2).isSome = true →
      (toDigit 16 c3).isSome = true → (toDigit 16 c4).isSome = true →
      0xD800 ≤ natVal 16 [c1, c2, c3, c4] ∧
        natVal 16 [c1, c2, c3, c4] ≤ 0xDFFF →
      errKinds (rune ('\\' :: 'u' :: c1 :: c2 :: c3 :: c4 :: rest)) =
        [.vchar 'U', .valt]) ∧
    errKinds (rune ("\\UdeadDEAD".toList)) = [.vmapOpt, .valt] ∧
    errKinds (rune ("\\uD801".toList)) = [.vchar 'U', .valt] := by
  refine ⟨?_, ?_, by decide, by decide⟩
  · intro c1 c2 c3 c4 c5 c6 c7 c8 rest h1 h2 h3 h4 h5 h6 h7 h8 hv
    rw [rune_U_eval_err h1 h2 h3 h4 h5 h6 h7 h8
      (by unfold validate_unicode_scalar; rw [if_pos (by omega)])]
    rfl
  · intro c1 c2 c3 c4 rest h1 h2 h3 h4 hv
    rw [rune_u_eval_err h1 h2 h3 h4
      (by unfold validate_unicode_scalar; rw [if_pos (by omega)])]
    rfl

/-- Witness for C8 (amended): the test-suite inputs `\UdeadDEAD` and `\uD801`
instantiate the two general parts. -/
theorem c8_semantic_rejection_amended_witness :
    errKinds (rune ('\\' :: 'U' :: 'd' :: 'e' :: 'a' :: 'd' :: 'D' :: 'E' ::
        'A' :: 'D' :: [])) = [.vmapOpt, .valt] ∧
    errKinds (rune ('\\' :: 'u' :: 'D' :: '8' :: '0' :: '1' :: [])) =
      [.vchar 'U', .valt] :=
  ⟨c8_semantic_rejection_amended.1 'd' 'e' 'a' 'd' 'D' 'E' 'A' 'D' []
      (by decide) (by decide) (by decide) (by decide) (by decide) (by decide)
      (by decide) (by decide) (by decide),
   c8_semantic_rejection_amended.2.1 'D' '8' '0' '1' [] (by decide) (by decide)
      (by decide) (by decide) (by decide)⟩

/-- C6: escape decoding does not depend on the delimiting quote: both `\'` and
`\"` are recognized inside double- and single-quoted literals, decoding to
bytes 0x27 and 0x22 respectively, and the decoded contents agree between the
two quoted forms. -/
theorem c6_quote_independent_escapes :
    string ('"' :: 'a' :: '\\' :: squote :: 'b' :: '\\' :: '"' :: 'c' ::
        '"' :: []) = .ok [] [0x61, 0x27, 0x62, 0x22, 0x63] ∧
    string (squote :: 'a' :: '\\' :: squote :: 'b' :: '\\' :: '"' :: 'c' ::
        squote :: []) = .ok [] [0x61, 0x27, 0x62, 0x22, 0x63] := by
  refine ⟨by decide, by decide⟩

/-- C9: the empty backtick raw literal fails to parse (the raw content parser
`is_not_v` requires at least one character), while the empty quoted literals
both succeed with the empty byte sequence. -/
theorem c9_empty_literals :
    isErrorB (string (btick :: btick :: [])) = true ∧
    string ('"' :: '"' :: []) = .ok [] [] ∧
    string (squote :: squote :: []) = .ok [] [] := by
  refine ⟨by decide, by decide, by decide⟩

end PromQL.Str

/-! Consumption lemmas: what a successful parse consumes, and that non-raw
literal parses never consume a literal newline. -/

namespace PromQL.Str

theorem pchar_cons {c : Char} {t : List Char} : pchar c (c :: t) = .ok t c := by
  simp [pchar]

theorem pchar_err {c x : Char} (h : ¬(x = c)) {t : List Char} :
    pchar c (x :: t) = .error [(x :: t, .vchar c)] := by
  simp [pchar, h]

theorem pdelimited_ok {α β γ : Type} {a : P α} {b : P β} {c : P γ}
    {input rest : List Char} {v : β}
    (h : pdelimited a b c input = .ok rest v) :
    ∃ i1 i2 va vc, a input = .ok i1 va ∧ b i1 = .ok i2 v ∧
      c i2 = .ok rest vc := by
  cases ha : a input with
  | error e => simp [pdelimited, ha] at h
  | ok i1 va =>
    simp only [pdelimited, ha] at h
    cases hb : b i1 with
    | error e => simp [hb] at h
    | ok i2 vb =>
      simp only [hb] at h
      cases hc : c i2 with
      | error e => simp [hc] at h
      | ok i3 vc =>
        simp only [hc, PR.ok.injEq] at h
        refine ⟨i1, i2, va, vc, rfl, ?_, ?_⟩
        · rw [← h.2]; exact hb
        · rw [← h.1]; exact hc

theorem pdelimited_err_first {α β γ : Type} {a : P α} {b : P β} {c : P γ}
    {input : List Char} {e} (h : a input = .error e) :
    pdelimited a b c input = .error e := by
  simp [pdelimited, h]

theorem toDigit_newline_none (radix : Nat) : toDigit radix '\n' = none := by
  unfold toDigit
  rw [if_neg (by decide), if_neg (by decide), if_neg (by decide)]

theorem numchar_ne_newline {radix : Nat} {c : Char}
    (h : c = '+' ∨ (toDigit radix c).isSome = true) : ¬(c = '\n') := by
  intro he
  subst he
  rcases h with h | h
  · exact absurd h (by decide)
  · rw [toDigit_newline_none] at h
    exact absurd h (by simp)

theorem from_str_radix_chars {max radix : Nat} {s : List Char} {n : Nat}
    (h : from_str_radix max radix s = some n) :
    ∀ c ∈ s, c = '+' ∨ (toDigit radix c).isSome := by
  cases s with
  | nil => simp [from_str_radix] at h
  | cons x t =>
    by_cases hx : x = '+'
    · subst hx
      cases t with
      | nil => simp [from_str_radix] at h
      | cons y u =>
        simp only [from_str_radix, if_pos rfl] at h
        intro c hc
        rcases List.mem_cons.mp hc with rfl | hc
        · exact Or.inl rfl
        · exact Or.inr (fromStrRadixGo_chars h c hc)
    · simp only [from_str_radix, if_neg hx] at h
      intro c hc
      exact Or.inr (fromStrRadixGo_chars h c hc)

theorem flr_consume {max len radix : Nat} {input rest : List Char} {n : Nat}
    (h : fixed_length_radix max len radix input = .ok rest n) :
    ∃ s, input = s ++ rest ∧ ∀ c ∈ s, c = '+' ∨ (toDigit radix c).isSome := by
  obtain ⟨s, hs, hf⟩ := pmapRes_ok h
  obtain ⟨hi, _⟩ := ptake_ok hs
  exact ⟨s, hi, from_str_radix_chars hf⟩

theorem pmap_pchar_consume {c : Char} (hc : ¬(c = '\n')) {f : Char → List Nat}
    {input rest : List Char} {v : List Nat}
    (h : pmap (pchar c) f input = .ok rest v) :
    ∃ pre, input = pre ++ rest ∧ ∀ x ∈ pre, ¬(x = '\n') := by
  obtain ⟨w, hw, _⟩ := pmap_ok h
  obtain ⟨hi, _⟩ := pchar_ok hw
  refine ⟨[c], by rw [hi]; rfl, ?_⟩
  intro x hx
  simp only [List.mem_cons, List.not_mem_nil, or_false] at hx
  subst hx
  exact hc

theorem preceded_pchar_flr_consume {c : Char} (hc : ¬(c = '\n'))
    {max len radix : Nat} {input rest : List Char} {n : Nat}
    (h : ppreceded (pchar c) (fixed_length_radix max len radix) input =
      .ok rest n) :
    ∃ pre, input = pre ++ rest ∧ ∀ x ∈ pre, ¬(x = '\n') := by
  obtain ⟨mid, va, ha, hb⟩ := ppreceded_ok h
  obtain ⟨hi, _⟩ := pchar_ok ha
  obtain ⟨s, hs, hchars⟩ := flr_consume hb
  refine ⟨c :: s, by rw [hi, hs]; rfl, ?_⟩
  intro x hx
  rcases List.mem_cons.mp hx with rfl | hx
  · exact hc
  · exact numchar_ne_newline (hchars x hx)

theorem rune_consume {input rest : List Char} {v : List Nat}
    (h : rune input = .ok rest v) :
    ∃ pre, input = pre ++ rest ∧ ∀ c ∈ pre, ¬(c = '\n') := by
  obtain ⟨mid, va, ha, hb⟩ := ppreceded_ok h
  obtain ⟨hi, _⟩ := pchar_ok ha
  obtain ⟨p, hp, hpok⟩ := palt_ok hb
  have hbranch : ∃ pre, mid = pre ++ rest ∧ ∀ c ∈ pre, ¬(c = '\n') := by
    simp only [runeAlts, List.mem_cons, List.not_mem_nil, or_false] at hp
    rcases hp with rfl | rfl | rfl | rfl | rfl | rfl | rfl | rfl | rfl | rfl |
      rfl | rfl | rfl | rfl
    · exact pmap_pchar_consume (by decide) hpok
    · exact pmap_pchar_consume (by decide) hpok
    · exact pmap_pchar_consume (by decide) hpok
    · exact pmap_pchar_consume (by decide) hpok
    · exact pmap_pchar_consume (by decide) hpok
    · exact pmap_pchar_consume (by decide) hpok
    · exact pmap_pchar_consume (by decide) hpok
    · exact pmap_pchar_consume (by decide) hpok
    · exact pmap_pchar_consume (by decide) hpok
    · exact pmap_pchar_consume (by decide) hpok
    · obtain ⟨w, hw, _⟩ := pmap_ok hpok
      obtain ⟨s, hs, hchars⟩ := flr_consume hw
      exact ⟨s, hs, fun c hc => numchar_ne_newline (hchars c hc)⟩
    · obtain ⟨w, hw, _⟩ := pmap_ok hpok
      exact preceded_pchar_flr_consume (by decide) hw
    · obtain ⟨w, hw, _⟩ := pmapOpt_ok hpok
      exact preceded_pchar_flr_consume (by decide) hw
    · obtain ⟨w, hw, _⟩ := pmapOpt_ok hpok
      exact preceded_pchar_flr_consume (by decide) hw
  obtain ⟨pre, hpre, hnl⟩ := hbranch
  refine ⟨'\\' :: pre, by rw [hi, hpre]; rfl, ?_⟩
  intro c hc
  rcases List.mem_cons.mp hc with rfl | hc
  · decide
  · exact hnl c hc

theorem is_not_v_consume {arg : List Char} (hnl : '\n' ∈ arg)
    {input rest : List Char} {v : List Nat}
    (h : is_not_v arg input = .ok rest v) :
    ∃ pre, input = pre ++ rest ∧ ∀ c ∈ pre, ¬(c = '\n') := by
  obtain ⟨w, hw, _⟩ := pmap_ok h
  obtain ⟨hi, _, hchars⟩ := is_not_ok hw
  refine ⟨w, hi, ?_⟩
  intro c hc he
  subst he
  have h2 : arg.contains '\n' = true := List.elem_eq_true_of_mem hnl
  have h3 := hchars '\n' hc
  rw [h2] at h3
  exact absurd h3 (by decide)

theorem many0Go_consume {α : Type} {p : P α}
    (hp : ∀ (input rest : List Char) (v : α), p input = .ok rest v →
      ∃ pre, input = pre ++ rest ∧ ∀ c ∈ pre, ¬(c = '\n')) :
    ∀ (fuel : Nat) {input rest : List Char} {vs : List α},
      many0Go p fuel input = .ok rest vs →
      ∃ pre, input = pre ++ rest ∧ ∀ c ∈ pre, ¬(c = '\n') := by
  intro fuel
  induction fuel with
  | zero => intro input rest vs h; simp [many0Go] at h
  | succ n ih =>
    intro input rest vs h
    cases hpi : p input with
    | error e =>
      simp only [many0Go, hpi] at h
      simp only [PR.ok.injEq] at h
      exact ⟨[], by rw [h.1]; rfl, by simp⟩
    | ok r1 v =>
      simp only [many0Go, hpi] at h
      by_cases hlt : r1.length < input.length
      · rw [if_pos hlt] at h
        cases hrec : many0Go p n r1 with
        | ok r2 vs2 =>
          rw [hrec] at h
          simp only [PR.ok.injEq] at h
          obtain ⟨pre1, hpre1, hnl1⟩ := hp input r1 v hpi
          obtain ⟨pre2, hpre2, hnl2⟩ := ih hrec
          refine ⟨pre1 ++ pre2, ?_, ?_⟩
          · rw [hpre1, hpre2, h.1, List.append_assoc]
          · intro c hc
            rcases List.mem_append.mp hc with hc | hc
            exacts [hnl1 c hc, hnl2 c hc]
        | error e => rw [hrec] at h; exact absurd h (by simp)
      · rw [if_neg hlt] at h
        exact absurd h (by simp)

theorem chars_except_consume {arg : List Char} (hnl : '\n' ∈ arg)
    {input rest : List Char} {v : List Nat}
    (h : chars_except arg input = .ok rest v) :
    ∃ pre, input = pre ++ rest ∧ ∀ c ∈ pre, ¬(c = '\n') := by
  obtain ⟨w, hw, _⟩ := pmap_ok h
  simp only [many0] at hw
  refine many0Go_consume ?_ _ hw
  intro input2 rest2 v2 h2
  obtain ⟨p, hp, hpok⟩ := palt_ok h2
  simp only [List.mem_cons, List.not_mem_nil, or_false] at hp
  rcases hp with rfl | rfl
  · exact rune_consume hpok
  · exact is_not_v_consume hnl hpok

theorem takeWhile_middle {p : Char → Bool} {s : List Char} {x : Char}
    {r : List Char} (hs : ∀ c ∈ s, p c = true) (hx : p x = false) :
    (s ++ x :: r).takeWhile p = s ∧ (s ++ x :: r).dropWhile p = x :: r := by
  induction s with
  | nil => simp [List.takeWhile_cons, List.dropWhile_cons, hx]
  | cons y t ih =>
    have hy : p y = true := hs y (List.mem_cons_self y t)
    have iht := ih (fun c hc => hs c (List.mem_cons_of_mem _ hc))
    simp only [List.cons_append, List.takeWhile_cons, List.dropWhile_cons, hy,
      if_true, iht.1, iht.2]
    exact ⟨trivial, trivial⟩

end PromQL.Str

namespace PromQL.Str

/-- C7: a single- or double-quoted (non-raw) literal never consumes a literal
unescaped newline — so any literal whose content holds one before the closing
delimiter fails, as the concrete `'this<LF>is not valid'` does — while a
backtick raw literal passes every character other than the closing backtick,
newlines and backslashes included, through to the output unchanged. -/
theorem c7_newline_rejection_raw_passthrough :
    (∀ (input rest : List Char) (bs : List Nat),
      input.head? = some '"' ∨ input.head? = some squote →
      string input = .ok rest bs →
      ∃ pre, input = pre ++ rest ∧ ∀ c ∈ pre, ¬(c = '\n')) ∧
    isErrorB (string ((squote :: "this\nis not valid".toList) ++ [squote])) =
      true ∧
    (∀ (s rest : List Char), s ≠ [] → ¬(btick ∈ s) →
      string (btick :: (s ++ btick :: rest)) = .ok rest (strUtf8 s)) := by
  refine ⟨?_, by decide, ?_⟩
  · intro input rest bs hhead h
    simp only [string] at h
    obtain ⟨p, hp, hpok⟩ := palt_ok h
    simp only [List.mem_cons, List.not_mem_nil, or_false] at hp
    rcases hp with rfl | rfl | rfl
    · obtain ⟨i1, i2, va, vc, ha, hb, hc⟩ := pdelimited_ok hpok
      obtain ⟨hi, _⟩ := pchar_ok ha
      obtain ⟨pre1, hpre1, hnl1⟩ := chars_except_consume (by simp) hb
      obtain ⟨hi2, _⟩ := pchar_ok hc
      refine ⟨'"' :: pre1 ++ ['"'], ?_, ?_⟩
      · rw [hi, hpre1, hi2]
        simp [List.append_assoc]
      · intro c hc2
        rcases List.mem_cons.mp hc2 with rfl | hc2
        · decide
        · rcases List.mem_append.mp hc2 with hc2 | hc2
          · exact hnl1 c hc2
          · simp only [List.mem_cons, List.not_mem_nil, or_false] at hc2
            subst hc2
            decide
    · obtain ⟨i1, i2, va, vc, ha, hb, hc⟩ := pdelimited_ok hpok
      obtain ⟨hi, _⟩ := pchar_ok ha
      obtain ⟨pre1, hpre1, hnl1⟩ := chars_except_consume (by simp) hb
      obtain ⟨hi2, _⟩ := pchar_ok hc
      refine ⟨squote :: pre1 ++ [squote], ?_, ?_⟩
      · rw [hi, hpre1, hi2]
        simp [List.append_assoc]
      · intro c hc2
        rcases List.mem_cons.mp hc2 with rfl | hc2
        · decide
        · rcases List.mem_append.mp hc2 with hc2 | hc2
          · exact hnl1 c hc2
          · simp only [List.mem_cons, List.not_mem_nil, or_false] at hc2
            subst hc2
            decide
    · obtain ⟨i1, i2, va, vc, ha, hb, hc⟩ := pdelimited_ok hpok
      obtain ⟨hi, _⟩ := pchar_ok ha
      rcases hhead with hh | hh
      · rw [hi] at hh
        simp only [List.head?_cons, Option.some.injEq] at hh
        exact absurd hh (by decide)
      · rw [hi] at hh
        simp only [List.head?_cons, Option.some.injEq] at hh
        exact absurd hh (by decide)
  · intro s rest hne hnb
    have hs2 : ∀ c ∈ s,
        (fun c => !(([btick] : List Char).contains c)) c = true := by
      intro c hc
      have hcb : ¬(c = btick) := fun he => hnb (he ▸ hc)
      have hbe : (c == btick) = false := beq_eq_false_iff_ne.mpr hcb
      simp [List.contains, List.elem, hbe]
    have hx : (fun c => !(([btick] : List Char).contains c)) btick = false := by
      simp [List.contains, List.elem]
    have htw := takeWhile_middle (r := rest) hs2 hx
    have hisnot : is_not [btick] (s ++ btick :: rest) =
        .ok (btick :: rest) s := by
      simp only [is_not]
      rw [htw.1, htw.2]
      rw [if_neg (fun h0 => hne (List.length_eq_zero.mp h0))]
    have h1 : pchar btick (btick :: (s ++ btick :: rest)) =
        .ok (s ++ btick :: rest) btick := pchar_cons
    have h2 : is_not_v [btick] (s ++ btick :: rest) =
        .ok (btick :: rest) (strUtf8 s) := pmap_ok_of hisnot
    have h3 : pchar btick (btick :: rest) = .ok rest btick := pchar_cons
    have hbt : pdelimited (pchar btick) (is_not_v [btick]) (pchar btick)
        (btick :: (s ++ btick :: rest)) = .ok rest (strUtf8 s) := by
      simp only [pdelimited, h1, h2, h3]
    simp only [string, palt]
    rw [paltGo_cons_err (pdelimited_err_first (pchar_err (by decide))),
        paltGo_cons_err (pdelimited_err_first (pchar_err (by decide))),
        paltGo_cons_ok hbt]

/-- Witness for C7: the one-character raw literal passes through, and the
successful double-quoted parse of `"a"` consumed no newline. -/
theorem c7_newline_rejection_raw_passthrough_witness :
    string (btick :: (['a'] ++ btick :: [])) = .ok [] (strUtf8 ['a']) ∧
    (∃ pre, ('"' :: 'a' :: '"' :: []) = pre ++ ([] : List Char) ∧
      ∀ c ∈ pre, ¬(c = '\n')) :=
  ⟨c7_newline_rejection_raw_passthrough.2.2 ['a'] [] (by decide) (by decide),
   c7_newline_rejection_raw_passthrough.1 ('"' :: 'a' :: '"' :: []) [] [0x61]
     (Or.inl rfl) (by decide)⟩

end PromQL.Str

/-! Claims about the expression grammar (src/expr.rs). -/

namespace PromQL.Expr

theorem ptag_caret_nil : ptagN ['^'] [] = .incomplete := by decide

theorem ptag_caret_cons {c : Char} {t : List Char} (hc : ¬(c = '^')) :
    ptagN ['^'] (c :: t) = .error := by
  have hm : min (['^'] : List Char).length (c :: t).length = 1 := by
    simp only [List.length_cons, List.length_nil]
    omega
  simp only [ptagN, hm]
  have htk : (c :: t).take 1 = [c] := by simp
  rw [htk, show (['^'] : List Char).take 1 = ['^'] from rfl,
    if_neg (by simp [hc])]

/-- C2: the power parser parses one atom, then an optional `^` followed by a
recursive power-expression: when no `^` follows (the next token is absent or a
different character), the atom's result is returned unchanged; with `^` it
builds `Operator(atom, Pow, recursive_result)`, so `x^y^z` parses
right-associatively. -/
theorem c2_power_right_assoc :
    (∀ (atomP : NP Node) (input i1 : List Char) (x : Node),
      atomP (spDrop input) = .done i1 x →
      (spDrop i1).head? ≠ some '^' →
      power atomP input = .done (spDrop i1) x) ∧
    expression ("x^y^z".toList) =
      .done [] (.operator (.instantVector "x") .pow
        (.operator (.instantVector "y") .pow (.instantVector "z"))) ∧
    expression ("x^y".toList) =
      .done [] (.operator (.instantVector "x") .pow (.instantVector "y")) := by
  refine ⟨?_, by decide, by decide⟩
  intro atomP input i1 x hatom hhead
  show powerGo atomP (input.length + 1) input = .done (spDrop i1) x
  cases hsp : spDrop i1 with
  | nil =>
    simp only [powerGo, wsTrail, hatom, hsp, ptag_caret_nil]
  | cons c t =>
    have hc : ¬(c = '^') := by
      intro he
      rw [hsp, he] at hhead
      exact hhead rfl
    simp only [powerGo, wsTrail, hatom, hsp, ptag_caret_cons hc]

/-- Witness for C2: parsing `x` alone returns the atom's vector unchanged. -/
theorem c2_power_right_assoc_witness :
    power (atom (expressionF 0)) ['x'] = .done [] (Node.instantVector "x") :=
  c2_power_right_assoc.1 (atom (expressionF 0)) ['x'] []
    (Node.instantVector "x") (by decide) (by decide)

/-- C3: `foo + bar % baz` parses with `%` binding tighter than `+`, the mixed
example groups as `((foo+bar)-baz) <= (quux+xyzzy)`, and the public entry
point `expression` is the lowest layer: it runs the `or` layer over the whole
cascade `or < and/unless < comparison < plus/minus < mul/div/mod < power`. -/
theorem c3_precedence_order :
    expression ("foo + bar % baz".toList) =
      .done [] (.operator (.instantVector "foo") .plus
        (.operator (.instantVector "bar") .mod (.instantVector "baz"))) ∧
    expression ("foo + bar - baz <= quux + xyzzy".toList) =
      .done [] (.operator
        (.operator
          (.operator (.instantVector "foo") .plus (.instantVector "bar"))
          .minus (.instantVector "baz"))
        .le
        (.operator (.instantVector "quux") .plus (.instantVector "xyzzy"))) ∧
    (∀ input : List Char, expression input =
      or_op (and_unless (comparison (plus_minus (mul_div_mod
        (power (atom (expressionF input.length))))))) input) :=
  ⟨by decide, by decide, fun _ => rfl⟩

/-- C1: in each left-associative layer (mul/div/mod, plus/minus, comparison,
and/unless, or) a chain of two same-layer operators folds left:
`foo OP1 bar OP2 baz` parses as `Operator(Operator(foo, OP1, bar), OP2, baz)`
for every pair of operators of the layer, and a three-operator chain keeps
folding left in the order encountered. -/
theorem c1_left_layers_fold_left :
    (∀ p1 ∈ mulOps, ∀ p2 ∈ mulOps,
      expression (mk3 p1.1 p2.1) = .done [] (leftTree p1.2 p2.2)) ∧
    (∀ p1 ∈ plusOps, ∀ p2 ∈ plusOps,
      expression (mk3 p1.1 p2.1) = .done [] (leftTree p1.2 p2.2)) ∧
    (∀ p1 ∈ cmpOps, ∀ p2 ∈ cmpOps,
      expression (mk3 p1.1 p2.1) = .done [] (leftTree p1.2 p2.2)) ∧
    (∀ p1 ∈ andOps, ∀ p2 ∈ andOps,
      expression (mk3 p1.1 p2.1) = .done [] (leftTree p1.2 p2.2)) ∧
    (∀ p1 ∈ orOps, ∀ p2 ∈ orOps,
      expression (mk3 p1.1 p2.1) = .done [] (leftTree p1.2 p2.2)) ∧
    expression ("foo + bar - baz + quux".toList) =
      .done [] (.operator (.operator (.operator (.instantVector "foo") .plus
        (.instantVector "bar")) .minus (.instantVector "baz")) .plus
        (.instantVector "quux")) := by
  refine ⟨by decide, by decide, by decide, by decide, by decide, by decide⟩

/-- Witness for C1: the plus/minus layer at the pair `(+, -)` gives the
left-leaning tree for `foo + bar - baz`. -/
theorem c1_left_layers_fold_left_witness :
    expression (mk3 ['+'] ['-']) = .done [] (leftTree .plus .minus) :=
  c1_left_layers_fold_left.2.1 (['+'], Op.plus) (by decide) (['-'], Op.minus)
    (by decide)

end PromQL.Expr
